import Mathlib

/-!
# SpeechChessFrontend — verification of the rules-and-command core

Shallow embedding of the chess rules engine and voice-command parser of the
SpeechChessFrontend repository.  TypeScript classes become Lean namespaces,
mutable board state becomes explicit state passing (`Board → Board`), JS
strings become `List Char`, nullable values become `Option`, and thrown
exceptions become `Except String`.

Sources embedded:
* `src/chess/types.ts` — the data model (pieces, colors, squares, moves).
* `src/unnamed/part_001` — `AttackDetector` and `CastlingHandler`.
* `src/chess/board.ts` — `Board` (engine) and `CommandValidator`.
* `src/chess/piece_move_validator.ts` — `PieceMoveValidator`.
* `src/chess/fen_parser.ts` — `FENParser`.
* `src/commands/command_parser.ts` — `CommandParser`.

`SquareUtils` (`square_utils.ts`) and `MoveGenerator` (`move_generator.ts`)
are referenced by the sources but their files are not in the repository
snapshot; they are modelled from the spec (§3, §4.1, §4.3) and marked as
such below.
-/

/-- Piece kinds, from `src/chess/types.ts` (`enum PieceType`).  In the
TypeScript source the enum values are the non-empty strings `'king'` …
`'pawn'`; where JS truthiness of one of these values matters it is modelled
explicitly. -/
inductive PieceType where
  | king | queen | rook | bishop | knight | pawn
deriving DecidableEq, Repr

/-- Colors, from `src/chess/types.ts` (`enum Color`). -/
inductive Color where
  | white | black
deriving DecidableEq, Repr

/-- Square shade, from `src/chess/types.ts` (`enum SquareType`). -/
inductive SquareType where
  | light | dark
deriving DecidableEq, Repr

/-- A piece, from `src/chess/types.ts` (`interface Piece`). -/
structure Piece where
  type : PieceType
  color : Color
deriving DecidableEq, Repr

/-- The opposite color (the source writes
`color === Color.White ? Color.Black : Color.White` inline). -/
def Color.other : Color → Color
  | .white => .black
  | .black => .white

/-- A square.  The TypeScript `Square` is the two-character string
`` `${File}${Rank}` ``; we model it by its file index 0..7 (`a` = 0) and
rank index 0..7 (`1` = 0), with name conversion functions at the string
boundary. -/
structure Sq where
  file : Fin 8
  rank : Fin 8
deriving DecidableEq, Repr

/-- A move, from `src/chess/types.ts` (`interface Move`). -/
structure Move where
  piece : PieceType
  color : Color
  startSquare : Sq
  endSquare : Sq
deriving DecidableEq, Repr

/-- Castling rights, from `src/chess/types.ts` (`interface CastlingRights`). -/
structure CastlingRights where
  whiteKingside : Bool
  whiteQueenside : Bool
  blackKingside : Bool
  blackQueenside : Bool
deriving DecidableEq, Repr

namespace SquareUtils

/-- Modelled from the spec: `square_utils.ts` is missing from the snapshot.
Spec §3: a square is "an index in `[0,64)` defined as `rank*8 + file`
(file `a`=0, rank `1`=0)". -/
def toIndex (sq : Sq) : Nat := sq.rank.val * 8 + sq.file.val

/-- Modelled from the spec (§4.1): index → square, inverse of `toIndex`.
The lookup table is defined for indices 0..63; indices beyond the table are
clamped (the JS table would yield `undefined`, which no reachable call
produces). -/
def fromIndex (i : Nat) : Sq :=
  ⟨⟨i % 8, Nat.mod_lt _ (by norm_num)⟩, ⟨i / 8 % 8, Nat.mod_lt _ (by norm_num)⟩⟩

/-- Modelled from the spec (§4.1): validity check `0 ≤ file,rank < 8`.
Taken over `Int` because callers do signed offset arithmetic first. -/
def isValidFileRank (f r : Int) : Bool :=
  0 ≤ f && f < 8 && 0 ≤ r && r < 8

/-- Modelled from the spec (§3): `fileRankToIndex(file, rank) = rank*8 + file`,
on the signed coordinates used by callers (only applied to valid pairs). -/
def fileRankToIndexI (f r : Int) : Nat := (r * 8 + f).toNat

/-- Modelled from the spec (§3): `fileRankToIndex` on natural coordinates. -/
def fileRankToIndex (f r : Nat) : Nat := r * 8 + f

/-- Modelled from the spec (§4.1): 0-based file extraction from a square. -/
def getFile (sq : Sq) : Int := sq.file.val

/-- Modelled from the spec (§4.1): 0-based rank extraction from a square. -/
def getRank (sq : Sq) : Int := sq.rank.val

/-- Build a square from signed coordinates; callers establish validity
before calling. -/
def sqOfInts (f r : Int) : Sq := fromIndex (fileRankToIndexI f r)

end SquareUtils

/-- Piece lookup on the flat 64-square array (`squares[index]` in JS, where
an out-of-range index yields `undefined`). -/
def pieceAtIdx (squares : List (Option Piece)) (i : Nat) : Option Piece :=
  squares.getD i none

namespace AttackDetector

/-- From `src/unnamed/part_001` (`AttackDetector.checkSlidingAttack`): walk a
ray until the first occupied square or the board edge; hit iff that square
holds a piece of the attacker's color and one of the given kinds.  The JS
`while` loop runs at most 7 steps on an 8×8 board; the fuel of 8 makes the
recursion structural without changing behaviour. -/
def slideHit (squares : List (Option Piece)) (byColor : Color)
    (pieceTypes : List PieceType) : Int → Int → Int → Int → Nat → Bool
  | _, _, _, _, 0 => false
  | f, r, df, dr, fuel + 1 =>
    if SquareUtils.isValidFileRank f r then
      match pieceAtIdx squares (SquareUtils.fileRankToIndexI f r) with
      | some p => p.color == byColor && pieceTypes.contains p.type
      | none => slideHit squares byColor pieceTypes (f + df) (r + dr) df dr fuel
    else false

/-- The knight offsets of the source, as (rankOff, fileOff) pairs. -/
def knightOffsets : List (Int × Int) :=
  [(-2, -1), (-2, 1), (-1, -2), (-1, 2), (1, -2), (1, 2), (2, -1), (2, 1)]

/-- The king offsets of the source, as (rankOff, fileOff) pairs. -/
def kingOffsets : List (Int × Int) :=
  [(-1, -1), (-1, 0), (-1, 1), (0, -1), (0, 1), (1, -1), (1, 0), (1, 1)]

/-- From `src/unnamed/part_001` (`AttackDetector.checkKnightAttacks` /
`checkKingAttacks`): offset probe for a piece of the given kind and color. -/
def offsetHit (squares : List (Option Piece)) (f r : Int) (byColor : Color)
    (kind : PieceType) (offsets : List (Int × Int)) : Bool :=
  offsets.any fun off =>
    let newFile := f + off.2
    let newRank := r + off.1
    SquareUtils.isValidFileRank newFile newRank &&
      match pieceAtIdx squares (SquareUtils.fileRankToIndexI newFile newRank) with
      | some p => p.type == kind && p.color == byColor
      | none => false

/-- From `src/unnamed/part_001` (`AttackDetector.checkPawnAttacks`): pawn
diagonal probes in the attacker's forward direction. -/
def pawnHit (squares : List (Option Piece)) (f r : Int) (byColor : Color) : Bool :=
  let pawnRankDir : Int := if byColor == Color.white then -1 else 1
  [(-1 : Int), 1].any fun fileOff =>
    let newFile := f + fileOff
    let newRank := r + pawnRankDir
    SquareUtils.isValidFileRank newFile newRank &&
      match pieceAtIdx squares (SquareUtils.fileRankToIndexI newFile newRank) with
      | some p => p.type == PieceType.pawn && p.color == byColor
      | none => false

/-- The rook directions of the source, as (rankDir, fileDir) pairs. -/
def rookDirs : List (Int × Int) := [(-1, 0), (1, 0), (0, -1), (0, 1)]

/-- The bishop directions of the source, as (rankDir, fileDir) pairs. -/
def bishopDirs : List (Int × Int) := [(-1, -1), (-1, 1), (1, -1), (1, 1)]

/-- From `src/unnamed/part_001` (`AttackDetector.isSquareAttacked`): is any
piece of `byColor` attacking the square at `squareIndex`? -/
def isSquareAttacked (squares : List (Option Piece)) (squareIndex : Nat)
    (byColor : Color) : Bool :=
  let f : Int := squareIndex % 8
  let r : Int := squareIndex / 8
  offsetHit squares f r byColor PieceType.knight knightOffsets ||
  offsetHit squares f r byColor PieceType.king kingOffsets ||
  pawnHit squares f r byColor ||
  rookDirs.any (fun d =>
    slideHit squares byColor [PieceType.rook, PieceType.queen]
      (f + d.2) (r + d.1) d.2 d.1 8) ||
  bishopDirs.any (fun d =>
    slideHit squares byColor [PieceType.bishop, PieceType.queen]
      (f + d.2) (r + d.1) d.2 d.1 8)

end AttackDetector

namespace MoveGenerator

/-- Modelled from the spec: `move_generator.ts` is missing from the snapshot.
Spec §4.3 sliding pieces: "slide along each direction; stop after the first
occupied square; include that square iff it is an opposing piece".  The fuel
of 8 bounds the at-most-7 steps of a ray. -/
def ray (squares : List (Option Piece)) (color : Color) :
    Int → Int → Int → Int → Nat → List (Int × Int)
  | _, _, _, _, 0 => []
  | f, r, df, dr, fuel + 1 =>
    if SquareUtils.isValidFileRank f r then
      match pieceAtIdx squares (SquareUtils.fileRankToIndexI f r) with
      | some p => if p.color == color then [] else [(f, r)]
      | none => (f, r) :: ray squares color (f + df) (r + dr) df dr fuel
    else []

/-- Build the move record for a generated target square (spec §4.3: "Output
is a sequence of Moves" carrying the generating piece and square). -/
def mkMove (piece : Piece) (square : Sq) (f r : Int) : Move :=
  ⟨piece.type, piece.color, square, SquareUtils.sqOfInts f r⟩

/-- Modelled from the spec (§4.3): knight offsets, as (rankOff, fileOff). -/
def knightOffsets : List (Int × Int) :=
  [(-2, -1), (-2, 1), (-1, -2), (-1, 2), (1, -2), (1, 2), (2, -1), (2, 1)]

/-- Modelled from the spec (§4.3): king unit offsets, as (rankOff, fileOff). -/
def kingOffsets : List (Int × Int) :=
  [(-1, -1), (-1, 0), (-1, 1), (0, -1), (0, 1), (1, -1), (1, 0), (1, 1)]

/-- Offset-pattern moves (knight and king): "within bounds, target not
own-colored" (spec §4.3). -/
def offsetMoves (piece : Piece) (square : Sq) (squares : List (Option Piece))
    (offsets : List (Int × Int)) : List Move :=
  let f := SquareUtils.getFile square
  let r := SquareUtils.getRank square
  offsets.filterMap fun off =>
    let nf := f + off.2
    let nr := r + off.1
    if SquareUtils.isValidFileRank nf nr then
      match pieceAtIdx squares (SquareUtils.fileRankToIndexI nf nr) with
      | some p => if p.color == piece.color then none else some (mkMove piece square nf nr)
      | none => some (mkMove piece square nf nr)
    else none

/-- Modelled from the spec (§4.3), pawn pattern: single forward if empty;
double forward only from the color's home rank with both squares empty;
diagonal captures onto opposite-color pieces; a diagonal move onto the
en-passant target is a pseudo-move even if empty. -/
def pawnMoves (piece : Piece) (square : Sq) (squares : List (Option Piece))
    (enPassant : Option Sq) : List Move :=
  let f := SquareUtils.getFile square
  let r := SquareUtils.getRank square
  let dir : Int := if piece.color == Color.white then 1 else -1
  let homeRank : Int := if piece.color == Color.white then 1 else 6
  let emptyAt := fun (ef er : Int) =>
    (pieceAtIdx squares (SquareUtils.fileRankToIndexI ef er)).isNone
  let single :=
    if SquareUtils.isValidFileRank f (r + dir) && emptyAt f (r + dir) then
      [mkMove piece square f (r + dir)]
    else []
  let double :=
    if r == homeRank && emptyAt f (r + dir) && emptyAt f (r + 2 * dir) then
      [mkMove piece square f (r + 2 * dir)]
    else []
  let diag := [(-1 : Int), 1].filterMap fun df =>
    let nf := f + df
    let nr := r + dir
    if SquareUtils.isValidFileRank nf nr then
      match pieceAtIdx squares (SquareUtils.fileRankToIndexI nf nr) with
      | some p => if p.color == piece.color then none else some (mkMove piece square nf nr)
      | none =>
        if enPassant == some (SquareUtils.sqOfInts nf nr) then
          some (mkMove piece square nf nr)
        else none
    else none
  single ++ double ++ diag

/-- The four bishop ray directions, as (rankDir, fileDir). -/
def bishopDirs : List (Int × Int) := [(-1, -1), (-1, 1), (1, -1), (1, 1)]

/-- The four rook ray directions, as (rankDir, fileDir). -/
def rookDirs : List (Int × Int) := [(-1, 0), (1, 0), (0, -1), (0, 1)]

/-- Sliding moves along a list of directions (bishop, rook; queen uses
both). -/
def slidingMoves (piece : Piece) (square : Sq) (squares : List (Option Piece))
    (dirs : List (Int × Int)) : List Move :=
  let f := SquareUtils.getFile square
  let r := SquareUtils.getRank square
  dirs.flatMap fun d =>
    (ray squares piece.color (f + d.2) (r + d.1) d.2 d.1 8).map fun t =>
      mkMove piece square t.1 t.2

/-- Modelled from the spec (§4.3): per-piece pseudo-move patterns, ignoring
self-check.  Castling is NOT produced here.  The signature (piece, square,
squares array, en-passant target — no side to move) matches the call in
`Board.getValidMovesForSquare` (`src/chess/board.ts`). -/
def generateMoves (piece : Piece) (square : Sq) (squares : List (Option Piece))
    (enPassant : Option Sq) : List Move :=
  match piece.type with
  | .pawn => pawnMoves piece square squares enPassant
  | .knight => offsetMoves piece square squares knightOffsets
  | .king => offsetMoves piece square squares kingOffsets
  | .bishop => slidingMoves piece square squares bishopDirs
  | .rook => slidingMoves piece square squares rookDirs
  | .queen => slidingMoves piece square squares (bishopDirs ++ rookDirs)

end MoveGenerator

/-- The board engine, from `src/chess/board.ts` (`class Board`).  The mutable
JS object becomes an immutable record; the derived caches (`piecePositions`,
`kingPositions`, `validMovesCache`) are not stored but recomputed from
`squares`: the source maintains them exactly in sync with the piece array
(the §3 invariants), and the legal-move cache is only read when clean, so
the cache-free semantics coincide. -/
structure Board where
  squares : List (Option Piece)
  activeColor : Color
  castlingRights : CastlingRights
  enPassantSquare : Option Sq
  halfMoveClock : Nat
  fullMoveNumber : Nat
deriving DecidableEq, Repr

namespace Board

/-- `Board.getPieceAt` (`board.ts`). -/
def getPieceAt (b : Board) (sq : Sq) : Option Piece :=
  pieceAtIdx b.squares (SquareUtils.toIndex sq)

/-- `Board.getPieceAtIndex` (`board.ts`). -/
def getPieceAtIndex (b : Board) (i : Nat) : Option Piece := pieceAtIdx b.squares i

/-- The `kingPositions` cache of the source, recomputed: the index of the
king of the given color (the source keeps exactly one king per color; with
several, the cache would hold the last one placed — positions with several
kings of a color are outside the engine's domain). -/
def kingIndex? (b : Board) (c : Color) : Option Nat :=
  (List.range 64).find? fun i =>
    pieceAtIdx b.squares i == some ⟨PieceType.king, c⟩

/-- The per-(color, kind) `piecePositions` index sets of the source,
recomputed from the piece array (ascending index order stands in for the JS
`Set` insertion order; every claim below is insensitive to the order). -/
def findPieceIndices (b : Board) (t : PieceType) (c : Color) : List Nat :=
  (List.range 64).filter fun i => pieceAtIdx b.squares i == some ⟨t, c⟩

/-- `Board.findPieces` (`board.ts`). -/
def findPieces (b : Board) (t : PieceType) (c : Color) : List Sq :=
  (b.findPieceIndices t c).map SquareUtils.fromIndex

/-- The `Map` insertion order of `createPieceTypeMap` (`board.ts`). -/
def pieceTypesOrder : List PieceType :=
  [.king, .queen, .rook, .bishop, .knight, .pawn]

/-- `Board.getAllSquaresForColor` (`board.ts`): all occupied squares of a
color, iterating the per-kind index sets. -/
def getAllSquaresForColor (b : Board) (c : Color) : List Sq :=
  pieceTypesOrder.flatMap fun t => b.findPieces t c

/-- `Board.getSquaresOnFile` (`board.ts`): squares on a file holding pieces
of the given color. -/
def getSquaresOnFile (b : Board) (file : Fin 8) (c : Color) : List Sq :=
  (List.range 8).filterMap fun rank =>
    let index := SquareUtils.fileRankToIndex file.val rank
    match pieceAtIdx b.squares index with
    | some p => if p.color == c then some (SquareUtils.fromIndex index) else none
    | none => none

/-- `Board.isSquareAttacked` (`board.ts`), delegating to the detector. -/
def isSquareAttacked (b : Board) (squareIndex : Nat) (byColor : Color) : Bool :=
  AttackDetector.isSquareAttacked b.squares squareIndex byColor

/-- `Board.isInCheck` (`board.ts`): the side to move's king square is
attacked by the opponent.  A board with no king of the active color would
make the JS look up `undefined` and probe NaN coordinates, which never hit;
hence `false` in that (unreachable) case. -/
def isInCheck (b : Board) : Bool :=
  match b.kingIndex? b.activeColor with
  | some k => b.isSquareAttacked k b.activeColor.other
  | none => false

end Board

namespace CastlingHandler

/-- `CastlingHandler.validateCastlingPath` (`src/unnamed/part_001`): the
king's home square is unattacked; the pass-through and landing squares
(f, g kingside; c, d queenside) are empty and unattacked; queenside also
requires b empty. -/
def validateCastlingPath (b : Board) (color : Color) (kingside : Bool) : Bool :=
  let rank : Nat := if color == Color.white then 0 else 7
  let opponentColor := color.other
  let kingIndex := SquareUtils.fileRankToIndex 4 rank
  let pieceSquares := b.squares
  if AttackDetector.isSquareAttacked pieceSquares kingIndex opponentColor then
    false
  else if kingside then
    let f := SquareUtils.fileRankToIndex 5 rank
    let g := SquareUtils.fileRankToIndex 6 rank
    (b.getPieceAtIndex f).isNone && (b.getPieceAtIndex g).isNone &&
      !AttackDetector.isSquareAttacked pieceSquares f opponentColor &&
      !AttackDetector.isSquareAttacked pieceSquares g opponentColor
  else
    let bIdx := SquareUtils.fileRankToIndex 1 rank
    let c := SquareUtils.fileRankToIndex 2 rank
    let d := SquareUtils.fileRankToIndex 3 rank
    (b.getPieceAtIndex bIdx).isNone && (b.getPieceAtIndex c).isNone &&
      (b.getPieceAtIndex d).isNone &&
      !AttackDetector.isSquareAttacked pieceSquares c opponentColor &&
      !AttackDetector.isSquareAttacked pieceSquares d opponentColor

/-- `CastlingHandler.canCastleKingside` (`src/unnamed/part_001`). -/
def canCastleKingside (b : Board) : Bool :=
  let color := b.activeColor
  let canK := if color == Color.white then b.castlingRights.whiteKingside
              else b.castlingRights.blackKingside
  if !canK then false else validateCastlingPath b color true

/-- `CastlingHandler.canCastleQueenside` (`src/unnamed/part_001`). -/
def canCastleQueenside (b : Board) : Bool :=
  let color := b.activeColor
  let canQ := if color == Color.white then b.castlingRights.whiteQueenside
              else b.castlingRights.blackQueenside
  if !canQ then false else validateCastlingPath b color false

/-- `CastlingHandler.canCastleKingsideForColor` (`src/unnamed/part_001`). -/
def canCastleKingsideForColor (b : Board) (color : Color) : Bool :=
  let canK := if color == Color.white then b.castlingRights.whiteKingside
              else b.castlingRights.blackKingside
  if !canK then false else validateCastlingPath b color true

/-- `CastlingHandler.canCastleQueensideForColor` (`src/unnamed/part_001`). -/
def canCastleQueensideForColor (b : Board) (color : Color) : Bool :=
  let canQ := if color == Color.white then b.castlingRights.whiteQueenside
              else b.castlingRights.blackQueenside
  if !canQ then false else validateCastlingPath b color false

/-- `CastlingHandler.getCastlingMoves` (`src/unnamed/part_001`): the king's
castling destination moves for the legal-move list. -/
def getCastlingMoves (b : Board) (color : Color) : List Move :=
  let rank : Nat := if color == Color.white then 0 else 7
  let kingIndex := SquareUtils.fileRankToIndex 4 rank
  let opponentColor := color.other
  if AttackDetector.isSquareAttacked b.squares kingIndex opponentColor then []
  else
    (if canCastleKingsideForColor b color then
      [⟨PieceType.king, color, SquareUtils.fromIndex kingIndex,
        SquareUtils.fromIndex (SquareUtils.fileRankToIndex 6 rank)⟩]
     else []) ++
    (if canCastleQueensideForColor b color then
      [⟨PieceType.king, color, SquareUtils.fromIndex kingIndex,
        SquareUtils.fromIndex (SquareUtils.fileRankToIndex 2 rank)⟩]
     else [])

end CastlingHandler

namespace Board

/-- `Board.isMoveLegal` (`board.ts`): temporarily execute the move on the
piece array (including an en-passant removal), test whether the mover's
king square is attacked, and report legality.  The JS mutate-then-restore
becomes computing the temporary array.  A missing `kingPositions` entry
would make the JS probe NaN coordinates and report "not attacked"; hence
the `none` branch. -/
def isMoveLegal (b : Board) (move : Move) : Bool :=
  let fromIndex := SquareUtils.toIndex move.startSquare
  let toIndex := SquareUtils.toIndex move.endSquare
  let movingPiece := pieceAtIdx b.squares fromIndex
  let tempSquares := (b.squares.set fromIndex none).set toIndex movingPiece
  let tempSquares :=
    if movingPiece.any (fun p => p.type == PieceType.pawn) &&
        b.enPassantSquare == some move.endSquare then
      let capturedRank :=
        if movingPiece.any (fun p => p.color == Color.white) then
          SquareUtils.getRank move.endSquare - 1
        else
          SquareUtils.getRank move.endSquare + 1
      let enPassantIndex :=
        SquareUtils.fileRankToIndexI (SquareUtils.getFile move.endSquare) capturedRank
      tempSquares.set enPassantIndex none
    else tempSquares
  let kingPos? :=
    if movingPiece.any (fun p => p.type == PieceType.king) then some toIndex
    else b.kingIndex? move.color
  let opponentColor := move.color.other
  let inCheck :=
    match kingPos? with
    | some kingPos => AttackDetector.isSquareAttacked tempSquares kingPos opponentColor
    | none => false
  !inCheck

/-- `Board.getValidMovesForSquare` (`board.ts`): pseudo-moves of the piece
on the square, filtered by the legality check, plus castling moves when the
piece is a king.  The `validMovesCache` is modelled away (it is read only
when clean and holds exactly this computation). -/
def getValidMovesForSquare (b : Board) (square : Sq) : List Move :=
  match pieceAtIdx b.squares (SquareUtils.toIndex square) with
  | none => []
  | some piece =>
    let pseudoLegalMoves :=
      MoveGenerator.generateMoves piece square b.squares b.enPassantSquare
    let legalMoves := pseudoLegalMoves.filter b.isMoveLegal
    if piece.type == PieceType.king then
      legalMoves ++ CastlingHandler.getCastlingMoves b piece.color
    else legalMoves

/-- `Board.getAllValidMoves` (`board.ts`): all valid moves from squares
occupied by the active color (iterating the piece-index sets). -/
def getAllValidMoves (b : Board) : List Move :=
  pieceTypesOrder.flatMap fun t =>
    (b.findPieceIndices t b.activeColor).flatMap fun index =>
      b.getValidMovesForSquare (SquareUtils.fromIndex index)

/-- `Board.getTargetSquares` (`board.ts`). -/
def getTargetSquares (b : Board) (square : Sq) : List Sq :=
  (b.getValidMovesForSquare square).map (·.endSquare)

/-- Place a piece (`Board.placePiece`): sets the array cell; the cache
updates of the source are derived here. -/
def placePiece (b : Board) (sq : Sq) (p : Piece) : Board :=
  { b with squares := b.squares.set (SquareUtils.toIndex sq) (some p) }

/-- Remove a piece (`Board.removePiece`): clears the array cell (a no-op
when the cell is empty, as in the source). -/
def removePiece (b : Board) (sq : Sq) : Board :=
  { b with squares := b.squares.set (SquareUtils.toIndex sq) none }

/-- `Board.movePieceInternal` (`board.ts`). -/
def movePieceInternal (b : Board) (fromSq toSq : Sq) : Board :=
  match b.getPieceAt fromSq with
  | none => b
  | some piece => (b.removePiece fromSq).placePiece toSq piece

/-- `Board.moveCastlingRook` (`board.ts`): relocate the rook h→f (kingside)
or a→d (queenside) on the color's home rank. -/
def moveCastlingRook (b : Board) (color : Color) (kingside : Bool) : Board :=
  let rank : Fin 8 := if color == Color.white then 0 else 7
  if kingside then b.movePieceInternal ⟨7, rank⟩ ⟨5, rank⟩
  else b.movePieceInternal ⟨0, rank⟩ ⟨3, rank⟩

/-- `Board.updateEnPassantSquare` (`board.ts`): set the target behind a
double pawn push, else clear. -/
def updateEnPassantSquare (b : Board) (move : Move) (piece : Piece)
    (isPawnMove : Bool) : Board :=
  if isPawnMove &&
      (SquareUtils.getRank move.endSquare - SquareUtils.getRank move.startSquare).natAbs
        == 2 then
    let epRank :=
      if piece.color == Color.white then SquareUtils.getRank move.startSquare + 1
      else SquareUtils.getRank move.startSquare - 1
    { b with enPassantSquare := some (SquareUtils.fromIndex
        (SquareUtils.fileRankToIndexI (SquareUtils.getFile move.startSquare) epRank)) }
  else { b with enPassantSquare := none }

/-- `Board.updateCastlingRights` (`board.ts`): a king move clears both of
its color's rights; any move from or onto a corner square clears the right
tied to that corner. -/
def updateCastlingRights (b : Board) (move : Move) : Board :=
  let r := b.castlingRights
  let r :=
    if move.piece == PieceType.king then
      if move.color == Color.white then
        { r with whiteKingside := false, whiteQueenside := false }
      else
        { r with blackKingside := false, blackQueenside := false }
    else r
  let a1 : Sq := ⟨0, 0⟩
  let h1 : Sq := ⟨7, 0⟩
  let a8 : Sq := ⟨0, 7⟩
  let h8 : Sq := ⟨7, 7⟩
  let touches := fun (sq : Sq) => move.startSquare == sq || move.endSquare == sq
  let r := if touches a1 then { r with whiteQueenside := false } else r
  let r := if touches h1 then { r with whiteKingside := false } else r
  let r := if touches a8 then { r with blackQueenside := false } else r
  let r := if touches h8 then { r with blackKingside := false } else r
  { b with castlingRights := r }

/-- `Board.updateClocks` (`board.ts`): halfmove clock resets on pawn move or
capture, else increments; fullmove number increments when the mover (still
the active color at this point) is Black. -/
def updateClocks (b : Board) (isPawnMove isCapture : Bool) : Board :=
  let b :=
    if isPawnMove || isCapture then { b with halfMoveClock := 0 }
    else { b with halfMoveClock := b.halfMoveClock + 1 }
  if b.activeColor == Color.black then
    { b with fullMoveNumber := b.fullMoveNumber + 1 }
  else b

/-- `Board.executeValidatedMove` (`board.ts`): en-passant removal, castling
rook relocation, the main move, then the state updates in source order. -/
def executeValidatedMove (b : Board) (move : Move) (piece : Piece) : Board :=
  let capturedPiece := b.getPieceAt move.endSquare
  let isPawnMove := piece.type == PieceType.pawn
  let b :=
    if isPawnMove && b.enPassantSquare == some move.endSquare then
      let capturedRank :=
        if piece.color == Color.white then SquareUtils.getRank move.endSquare - 1
        else SquareUtils.getRank move.endSquare + 1
      let capturedIndex :=
        SquareUtils.fileRankToIndexI (SquareUtils.getFile move.endSquare) capturedRank
      b.removePiece (SquareUtils.fromIndex capturedIndex)
    else b
  let b :=
    if piece.type == PieceType.king then
      let fileDiff :=
        SquareUtils.getFile move.endSquare - SquareUtils.getFile move.startSquare
      if fileDiff.natAbs == 2 then b.moveCastlingRook piece.color (fileDiff > 0)
      else b
    else b
  let b := b.removePiece move.startSquare
  let b := if capturedPiece.isSome then b.removePiece move.endSquare else b
  let b := b.placePiece move.endSquare piece
  let b := b.updateEnPassantSquare move piece isPawnMove
  let b := b.updateCastlingRights move
  let b := b.updateClocks isPawnMove capturedPiece.isSome
  { b with activeColor := b.activeColor.other }

/-- `Board.executeMove` (`board.ts`): validate against the square's valid
moves and the piece/color fields, then execute; returns the JS boolean
together with the (possibly unchanged) board. -/
def executeMove (b : Board) (move : Move) : Bool × Board :=
  let validMoves := b.getValidMovesForSquare move.startSquare
  let isValid := validMoves.any fun m =>
    m.startSquare == move.startSquare && m.endSquare == move.endSquare
  if !isValid then (false, b)
  else
    match b.getPieceAt move.startSquare with
    | none => (false, b)
    | some piece =>
      if piece.type == move.piece && piece.color == move.color then
        (true, b.executeValidatedMove move piece)
      else (false, b)

end Board

/-- The reason field of `Board.isGameOver` (`board.ts`). -/
inductive GameOverReason where
  | checkmate | stalemate | draw
deriving DecidableEq, Repr

/-- The result record of `Board.isGameOver` (`board.ts`). -/
structure GameOverResult where
  isOver : Bool
  reason : Option GameOverReason
deriving DecidableEq, Repr

namespace Board

/-- `Board.getSquareType` (`board.ts`): the square shade,
`(charCode(file letter) + rank index + 1) % 2 == 0` is light (the char code
of the file letter is `97 + fileIndex`). -/
def getSquareType (sq : Sq) : SquareType :=
  if ((97 + sq.file.val) + sq.rank.val + 1) % 2 == 0 then SquareType.light
  else SquareType.dark

/-- The JS condition `checkPieces[0][0] === PieceType.Bishop ||
PieceType.Knight` in `Board.hasInsufficientMaterial` (`board.ts`, line 447):
the right operand is the enum value, the non-empty string `'knight'`, which
is truthy, so the disjunction holds regardless of the left operand. -/
def knightEnumTruthy : Bool := true

/-- The supporting (non-king, non-empty) entries of a color's piece-index
map, in the map's insertion order (`board.ts`,
`[...pieces].filter(([t, s]) => s.size > 0 && t != King)`). -/
def supportingPieces (b : Board) (c : Color) : List (PieceType × List Nat) :=
  pieceTypesOrder.filterMap fun t =>
    let indices := b.findPieceIndices t c
    if !indices.isEmpty && t != PieceType.king then some (t, indices) else none

/-- The final both-bishops clause of `Board.hasInsufficientMaterial`
(`board.ts`, line 453): first entries of both supporting lists are bishops
on same-shade squares (first set element stands in for JS `Set` iteration;
the lists are singletons whenever this line is reached).  An empty list here
would crash the JS; that path is unreachable because the truthy-enum
condition above already returned. -/
def bothBishopsSameShade (sw sb : List (PieceType × List Nat)) : Bool :=
  match sw.head?, sb.head? with
  | some (wt, wIdxs), some (bt, bIdxs) =>
    wt == PieceType.bishop && bt == PieceType.bishop &&
      match wIdxs.head?, bIdxs.head? with
      | some wi, some bi =>
        getSquareType (SquareUtils.fromIndex wi) == getSquareType (SquareUtils.fromIndex bi)
      | _, _ => false
  | _, _ => false

/-- `Board.hasInsufficientMaterial` (`board.ts`), including the truthy enum
slip on line 447. -/
def hasInsufficientMaterial (b : Board) : Bool :=
  let supportingWhitePieces := b.supportingPieces Color.white
  let supportingBlackPieces := b.supportingPieces Color.black
  if supportingWhitePieces.length > 1 then false
  else if supportingBlackPieces.length > 1 then false
  else
    let onlyWhiteKing := supportingWhitePieces.length == 0
    let onlyBlackKing := supportingBlackPieces.length == 0
    if onlyWhiteKing && onlyBlackKing then true
    else if (onlyWhiteKing || onlyBlackKing) &&
        ((match (if onlyWhiteKing then supportingBlackPieces
                 else supportingWhitePieces).head? with
          | some e => e.1 == PieceType.bishop
          | none => false) || knightEnumTruthy) then true
    else bothBishopsSameShade supportingWhitePieces supportingBlackPieces

/-- `Board.isGameOver` (`board.ts`): no legal moves → checkmate/stalemate;
halfmove clock ≥ 100 → draw; insufficient material → draw; else running. -/
def isGameOver (b : Board) : GameOverResult :=
  let validMoves := b.getAllValidMoves
  if validMoves.length == 0 then
    if b.isInCheck then ⟨true, some GameOverReason.checkmate⟩
    else ⟨true, some GameOverReason.stalemate⟩
  else if b.halfMoveClock ≥ 100 then ⟨true, some GameOverReason.draw⟩
  else if b.hasInsufficientMaterial then ⟨true, some GameOverReason.draw⟩
  else ⟨false, none⟩

end Board

/-- JS `String.prototype.split(sep)` on a single-character separator:
always returns at least one (possibly empty) part. -/
def splitChar (sep : Char) : List Char → List (List Char)
  | [] => [[]]
  | c :: rest =>
    match splitChar sep rest with
    | [] => [[c]]
    | h :: t => if c == sep then [] :: h :: t else (c :: h) :: t

/-- Join with a single-character separator; the inverse of `splitChar`. -/
def joinSep (sep : Char) : List (List Char) → List Char
  | [] => []
  | [x] => x
  | x :: rest => x ++ sep :: joinSep sep rest

/-- ASCII lowercasing, modelling JS `toLowerCase` on the ASCII range the
sources use. -/
def jsToLower (c : Char) : Char :=
  if 'A' ≤ c && c ≤ 'Z' then Char.ofNat (c.toNat + 32) else c

/-- ASCII uppercasing, modelling JS `toUpperCase` on the ASCII range. -/
def jsToUpper (c : Char) : Char :=
  if 'a' ≤ c && c ≤ 'z' then Char.ofNat (c.toNat - 32) else c

/-- The JS test `char === char.toUpperCase()` used by the FEN parser to
pick a color: true for uppercase letters and for non-letters. -/
def eqOwnUpper (c : Char) : Bool := jsToUpper c == c

/-- The decimal digit character for `n` (code `48 + n`, written as the
explicit table; used with `n ≤ 9`, the default is unreachable). -/
def digitChar (n : Nat) : Char :=
  match n with
  | 0 => '0' | 1 => '1' | 2 => '2' | 3 => '3' | 4 => '4'
  | 5 => '5' | 6 => '6' | 7 => '7' | 8 => '8' | _ => '9'

/-- Is `c` an ASCII decimal digit (the JS regex `/\d/` of the FEN parser). -/
def isDigitChar (c : Char) : Bool :=
  ['0', '1', '2', '3', '4', '5', '6', '7', '8', '9'].contains c

/-- Decimal value of a digit run (most significant first). -/
def decToNat (chars : List Char) : Nat :=
  chars.foldl (fun acc c => acc * 10 + (c.toNat - 48)) 0

/-- JS number-to-string for a natural number, by repeated division; `fuel`
bounds the digit count (any `fuel > n` is enough) and makes the recursion
structural. -/
def natToDecimalAux : Nat → Nat → List Char
  | _, 0 => []
  | n, fuel + 1 =>
    if n < 10 then [digitChar n]
    else natToDecimalAux (n / 10) fuel ++ [digitChar (n % 10)]

/-- JS number-to-string for a natural number (the template interpolation
`` `${n}` `` of the FEN generator). -/
def natToDecimal (n : Nat) : List Char := natToDecimalAux n (n + 1)

/-- JS `parseInt` restricted to the unsigned decimal shapes the FEN fields
take: the value of the leading digit run, or `none` (JS `NaN`) when there
is none. -/
def parseIntJS (chars : List Char) : Option Nat :=
  let run := chars.takeWhile isDigitChar
  if run.isEmpty then none else some (decToNat run)

/-- File letter → 0-based file index (`a` = 0), the `square_utils` lookup
direction used by FEN and name parsing. -/
def fileCharToNat (c : Char) : Option Nat :=
  match c with
  | 'a' => some 0 | 'b' => some 1 | 'c' => some 2 | 'd' => some 3
  | 'e' => some 4 | 'f' => some 5 | 'g' => some 6 | 'h' => some 7
  | _ => none

/-- Rank character → 0-based rank index (`1` = 0). -/
def rankCharToNat (c : Char) : Option Nat :=
  match c with
  | '1' => some 0 | '2' => some 1 | '3' => some 2 | '4' => some 3
  | '5' => some 4 | '6' => some 5 | '7' => some 6 | '8' => some 7
  | _ => none

/-- 0-based file index → file letter. -/
def natToFileChar (n : Nat) : Char :=
  match n with
  | 0 => 'a' | 1 => 'b' | 2 => 'c' | 3 => 'd'
  | 4 => 'e' | 5 => 'f' | 6 => 'g' | _ => 'h'

/-- 0-based rank index → rank character. -/
def natToRankChar (n : Nat) : Char :=
  match n with
  | 0 => '1' | 1 => '2' | 2 => '3' | 3 => '4'
  | 4 => '5' | 5 => '6' | 6 => '7' | _ => '8'

/-- Square name (e.g. `e3`) → square, `none` for anything else. -/
def nameToSq : List Char → Option Sq
  | [c1, c2] =>
    match fileCharToNat c1, rankCharToNat c2 with
    | some f, some r =>
      if hf : f < 8 then
        if hr : r < 8 then some ⟨⟨f, hf⟩, ⟨r, hr⟩⟩ else none
      else none
    | _, _ => none
  | _ => none

/-- Square → its two-character name. -/
def sqToName (sq : Sq) : List Char :=
  [natToFileChar sq.file.val, natToRankChar sq.rank.val]

namespace FENParser

/-- A piece cell as the FEN parser of `fen_parser.ts` builds it: the
`PIECE_CHAR_MAP` lookup yields `undefined` (here `none`) for a character
that is no piece letter, and the parser stores it without checking. -/
structure RawPiece where
  typeOpt : Option PieceType
  color : Color
deriving DecidableEq, Repr

/-- `FENParser.PIECE_CHAR_MAP` (`fen_parser.ts`). -/
def pieceCharMap (c : Char) : Option PieceType :=
  match c with
  | 'k' => some PieceType.king
  | 'q' => some PieceType.queen
  | 'r' => some PieceType.rook
  | 'b' => some PieceType.bishop
  | 'n' => some PieceType.knight
  | 'p' => some PieceType.pawn
  | _ => none

/-- `FENParser.PIECE_TYPE_MAP` (`fen_parser.ts`). -/
def pieceTypeChar (t : PieceType) : Char :=
  match t with
  | .king => 'k' | .queen => 'q' | .rook => 'r'
  | .bishop => 'b' | .knight => 'n' | .pawn => 'p'

/-- The parsed record (`interface ParsedFEN` of `fen_parser.ts`).  The JS
en-passant field stores the raw string; we store the parsed square (a
string that is not `-` and not a valid square name would sit inert in the
JS board — it compares unequal to every real square name and is only echoed
back by the generator — so `none` is observationally equal for the engine). -/
structure ParsedFEN where
  pieces : List (Sq × RawPiece)
  activeColor : Color
  castlingRights : CastlingRights
  enPassantSquare : Option Sq
  halfMoveClock : Nat
  fullMoveNumber : Nat
deriving DecidableEq, Repr

/-- The inner character loop of `FENParser.parse` over one rank descriptor:
a digit advances the file cursor by its value (the JS regex `/\d/` accepts
any digit), any other character becomes a piece cell at the cursor.  A
cursor that runs past file 7 would address squares outside the rank in JS;
`SquareUtils.fromIndex` clamps there (unreachable for well-formed
descriptors). -/
def parseRankChars (rankIdx : Nat) : List Char → Nat → List (Sq × RawPiece)
  | [], _ => []
  | c :: rest, fileIdx =>
    if isDigitChar c then parseRankChars rankIdx rest (fileIdx + (c.toNat - 48))
    else
      (SquareUtils.fromIndex (SquareUtils.fileRankToIndex fileIdx rankIdx),
        ⟨pieceCharMap (jsToLower c), if eqOwnUpper c then Color.white else Color.black⟩)
        :: parseRankChars rankIdx rest (fileIdx + 1)

/-- `FENParser.parse` (`fen_parser.ts`).  Exceptions of the JS runtime
become `Except.error`: iterating a missing rank descriptor (fewer than 8
`/`-separated parts) and calling `.includes` on a missing castling field
are the two crash points; every other malformed input flows through
unchecked exactly as in the source. -/
def parse (chars : List Char) : Except String ParsedFEN :=
  let parts := splitChar ' ' chars
  let position := parts.headD []
  let ranks := splitChar '/' position
  if ranks.length < 8 then
    Except.error "TypeError: rank descriptor is not iterable"
  else
    match parts.get? 2 with
    | none => Except.error "TypeError: cannot read includes of undefined"
    | some castling =>
      let pieces := (List.range 8).flatMap fun j =>
        parseRankChars (7 - j) (ranks.getD j []) 0
      let activeColor :=
        if parts.getD 1 [] == ['w'] then Color.white else Color.black
      let castlingRights : CastlingRights :=
        ⟨castling.contains 'K', castling.contains 'Q',
         castling.contains 'k', castling.contains 'q'⟩
      let enPassantSquare :=
        match parts.get? 3 with
        | some e => if e == ['-'] then none else nameToSq e
        | none => none
      let halfMoveClock := (parseIntJS (parts.getD 4 [])).getD 0
      let fullMoveNumber :=
        match parseIntJS (parts.getD 5 []) with
        | some n => if n == 0 then 1 else n
        | none => 1
      Except.ok ⟨pieces, activeColor, castlingRights, enPassantSquare,
        halfMoveClock, fullMoveNumber⟩

/-- The current contents of one rank of the piece array, file 0 to 7. -/
def rowChars (squares : List (Option Piece)) (rank : Nat) : List (Option Piece) :=
  (List.range 8).map fun file =>
    pieceAtIdx squares (SquareUtils.fileRankToIndex file rank)

/-- One piece letter of the generator (uppercase for White). -/
def pieceChar (p : Piece) : Char :=
  if p.color == Color.white then jsToUpper (pieceTypeChar p.type)
  else pieceTypeChar p.type

/-- The file loop of `FENParser.generate` over one rank: accumulate a run
of empties, flush it as a digit before a piece letter and at the end. -/
def genRankAux : List (Option Piece) → Nat → List Char
  | [], emptyCount => if emptyCount > 0 then [digitChar emptyCount] else []
  | none :: rest, emptyCount => genRankAux rest (emptyCount + 1)
  | some p :: rest, emptyCount =>
    (if emptyCount > 0 then [digitChar emptyCount] else []) ++
      pieceChar p :: genRankAux rest 0

/-- The piece-placement field of the generator: the eight rank descriptors,
rank 8 first, joined by `/`. -/
def placementField (squares : List (Option Piece)) : List Char :=
  joinSep '/' ((List.range 8).map fun j => genRankAux (rowChars squares (7 - j)) 0)

/-- The castling-availability field of the generator: `K`, `Q`, `k`, `q`
for each set right in that order, or `-` when none. -/
def castlingFieldOf (castlingRights : CastlingRights) : List Char :=
  let castling :=
    (if castlingRights.whiteKingside then ['K'] else []) ++
    (if castlingRights.whiteQueenside then ['Q'] else []) ++
    (if castlingRights.blackKingside then ['k'] else []) ++
    (if castlingRights.blackQueenside then ['q'] else [])
  if castling.isEmpty then ['-'] else castling

/-- The en-passant field of the generator: the square name or `-`. -/
def epFieldOf (enPassantSquare : Option Sq) : List Char :=
  match enPassantSquare with
  | some sq => sqToName sq
  | none => ['-']

/-- `FENParser.generate` (`fen_parser.ts`): six space-separated fields,
rank 8 first. -/
def generate (squares : List (Option Piece)) (activeColor : Color)
    (castlingRights : CastlingRights) (enPassantSquare : Option Sq)
    (halfMoveClock fullMoveNumber : Nat) : List Char :=
  placementField squares
    ++ ' ' :: (if activeColor == Color.white then ['w'] else ['b'])
    ++ ' ' :: castlingFieldOf castlingRights
    ++ ' ' :: epFieldOf enPassantSquare
    ++ ' ' :: natToDecimal halfMoveClock ++ ' ' :: natToDecimal fullMoveNumber

end FENParser

namespace Board

/-- Place a list of parsed cells on a piece array (the `placePiece` loop of
`Board.fromFEN`).  Placing a cell whose piece letter was unknown
dereferences `undefined` in the JS cache update (`placePiece`), modelled as
an error. -/
def applyCells (arr : List (Option Piece)) :
    List (Sq × FENParser.RawPiece) → Except String (List (Option Piece))
  | [] => Except.ok arr
  | cell :: rest =>
    match cell.2.typeOpt with
    | none => Except.error "TypeError: cannot add to undefined piece-index set"
    | some t =>
      applyCells (arr.set (SquareUtils.toIndex cell.1) (some ⟨t, cell.2.color⟩)) rest

/-- `Board.fromFEN` (`board.ts`): clear the board, place every parsed
piece, copy the state fields. -/
def fromFEN (chars : List Char) : Except String Board :=
  match FENParser.parse chars with
  | Except.error e => Except.error e
  | Except.ok parsed =>
    match applyCells (List.replicate 64 none) parsed.pieces with
    | Except.error e => Except.error e
    | Except.ok squares =>
      Except.ok ⟨squares, parsed.activeColor, parsed.castlingRights,
        parsed.enPassantSquare, parsed.halfMoveClock, parsed.fullMoveNumber⟩

/-- `Board.toFEN` (`board.ts`), delegating to the generator. -/
def toFEN (b : Board) : List Char :=
  FENParser.generate b.squares b.activeColor b.castlingRights
    b.enPassantSquare b.halfMoveClock b.fullMoveNumber

/-- `setupInitialPosition` (`board.ts`) together with the constructor's
initial state: the standard chess starting position. -/
def initial : Board :=
  let backRank : List (Fin 8 × PieceType) :=
    [(0, .rook), (1, .knight), (2, .bishop), (3, .queen),
     (4, .king), (5, .bishop), (6, .knight), (7, .rook)]
  let b0 : Board :=
    ⟨List.replicate 64 none, Color.white, ⟨true, true, true, true⟩, none, 0, 1⟩
  let b1 := backRank.foldl
    (fun b ft => (b.placePiece ⟨ft.1, 0⟩ ⟨ft.2, Color.white⟩).placePiece
      ⟨ft.1, 7⟩ ⟨ft.2, Color.black⟩) b0
  (List.finRange 8).foldl
    (fun b f => (b.placePiece ⟨f, 1⟩ ⟨PieceType.pawn, Color.white⟩).placePiece
      ⟨f, 6⟩ ⟨PieceType.pawn, Color.black⟩) b1

end Board

namespace PieceMoveValidator

/-- `PieceMoveValidator.isPathClear` (`piece_move_validator.ts`): the
squares strictly between two aligned squares are all empty.  The JS `while`
loop takes at most 7 steps for the straight/diagonal lines it is called on;
the fuel of 8 bounds it (exhaustion, unreachable on aligned input, keeps
the loop's exit value). -/
def isPathClearAux (b : Board) (toFile toRank fileStep rankStep : Int) :
    Int → Int → Nat → Bool
  | _, _, 0 => true
  | file, rank, fuel + 1 =>
    if file != toFile || rank != toRank then
      if (b.getPieceAtIndex (SquareUtils.fileRankToIndexI file rank)).isSome then false
      else isPathClearAux b toFile toRank fileStep rankStep
        (file + fileStep) (rank + rankStep) fuel
    else true

/-- `PieceMoveValidator.isPathClear` (`piece_move_validator.ts`). -/
def isPathClear (fromFile fromRank toFile toRank : Int) (b : Board) : Bool :=
  let fileStep : Int := if toFile == fromFile then 0 else if toFile > fromFile then 1 else -1
  let rankStep : Int := if toRank == fromRank then 0 else if toRank > fromRank then 1 else -1
  isPathClearAux b toFile toRank fileStep rankStep
    (fromFile + fileStep) (fromRank + rankStep) 8

/-- `PieceMoveValidator.canKingMoveTo` (`piece_move_validator.ts`): one
square in any direction (castling handled elsewhere). -/
def canKingMoveTo (fromSq toSq : Sq) : Bool :=
  let fileDiff := (SquareUtils.getFile toSq - SquareUtils.getFile fromSq).natAbs
  let rankDiff := (SquareUtils.getRank toSq - SquareUtils.getRank fromSq).natAbs
  fileDiff ≤ 1 && rankDiff ≤ 1

/-- `PieceMoveValidator.canQueenMoveTo` (`piece_move_validator.ts`):
straight or diagonal with a clear path. -/
def canQueenMoveTo (fromSq toSq : Sq) (b : Board) : Bool :=
  let fromFile := SquareUtils.getFile fromSq
  let fromRank := SquareUtils.getRank fromSq
  let toFile := SquareUtils.getFile toSq
  let toRank := SquareUtils.getRank toSq
  let fileDiff := toFile - fromFile
  let rankDiff := toRank - fromRank
  let isStraight := fileDiff == 0 || rankDiff == 0
  let isDiagonal := fileDiff.natAbs == rankDiff.natAbs
  if !isStraight && !isDiagonal then false
  else isPathClear fromFile fromRank toFile toRank b

/-- `PieceMoveValidator.canPawnMoveTo` (`piece_move_validator.ts`): single
push, double push from the home rank with both squares empty, diagonal
capture or en passant. -/
def canPawnMoveTo (color : Color) (fromSq toSq : Sq) (b : Board) : Bool :=
  let fromFile := SquareUtils.getFile fromSq
  let fromRank := SquareUtils.getRank fromSq
  let toFile := SquareUtils.getFile toSq
  let toRank := SquareUtils.getRank toSq
  let direction : Int := if color == Color.white then 1 else -1
  let startRank : Int := if color == Color.white then 1 else 6
  let fileDiff := toFile - fromFile
  let rankDiff := toRank - fromRank
  if fileDiff == 0 && rankDiff == direction then
    (b.getPieceAt toSq).isNone
  else if fileDiff == 0 && rankDiff == 2 * direction && fromRank == startRank then
    let middleRank := fromRank + direction
    let middleSquare := SquareUtils.fromIndex
      (SquareUtils.fileRankToIndexI fromFile middleRank)
    (b.getPieceAt middleSquare).isNone && (b.getPieceAt toSq).isNone
  else if fileDiff.natAbs == 1 && rankDiff == direction then
    match b.getPieceAt toSq with
    | some targetPiece => targetPiece.color != color
    | none => b.enPassantSquare == some toSq
  else false

/-- `PieceMoveValidator.canPieceMoveTo` (`piece_move_validator.ts`): only
King, Queen and Pawn are validated; every other kind falls to `false`. -/
def canPieceMoveTo (piece : Piece) (fromSq toSq : Sq) (b : Board) : Bool :=
  match piece.type with
  | .king => canKingMoveTo fromSq toSq
  | .queen => canQueenMoveTo fromSq toSq b
  | .pawn => canPawnMoveTo piece.color fromSq toSq b
  | _ => false

/-- `PieceMoveValidator.isSupportedPieceType` (`piece_move_validator.ts`). -/
def isSupportedPieceType (t : PieceType) : Bool :=
  t == PieceType.king || t == PieceType.queen || t == PieceType.pawn

end PieceMoveValidator

/-- Actions, from `src/commands/types.ts` (`enum Action`); named `Action`
in the source, renamed here only because Mathlib already declares an
`Action`. -/
inductive CmdAction where
  | move | capture | resign | promote | shortCastle | longCastle
deriving DecidableEq, Repr

/-- `CommandInfo` from `src/commands/types.ts`: a piece kind, a square, or
a file.  The JS union of a piece-kind string, a two-character square and a
one-character file is discriminated by length and enum membership (and the
piece-kind strings all have more than two characters), which the tagged sum
reproduces. -/
inductive CommandInfo where
  | piece (p : PieceType)
  | square (s : Sq)
  | file (f : Fin 8)
deriving DecidableEq, Repr

/-- A command, from `src/commands/types.ts` (`interface Command`); absent
JS fields become `none`. -/
structure Command where
  startInfo : Option CommandInfo := none
  action : Option CmdAction := none
  endInfo : Option CommandInfo := none
deriving DecidableEq, Repr

namespace CommandValidator

/-- `CommandValidator.isMoveLegal` together with `TemporaryBoardState`
(`board.ts`): overlay the move (clearing the start square, writing the
mover to the end square, removing an en-passant-captured pawn) and test
whether the mover's king square is attacked.  Identical in effect to
`Board.isMoveLegal`, but kept separate as in the source. -/
def isMoveLegal (b : Board) (move : Move) : Bool :=
  let fromIndex := SquareUtils.toIndex move.startSquare
  let toIndex := SquareUtils.toIndex move.endSquare
  let movingPiece := b.getPieceAtIndex fromIndex
  let enPassantCaptureIndex :=
    if movingPiece.any (fun p => p.type == PieceType.pawn) &&
        b.enPassantSquare == some move.endSquare then
      let capturedPawnRank :=
        if movingPiece.any (fun p => p.color == Color.white) then
          SquareUtils.getRank move.endSquare - 1
        else
          SquareUtils.getRank move.endSquare + 1
      some (SquareUtils.fileRankToIndexI
        (SquareUtils.getFile move.endSquare) capturedPawnRank)
    else none
  let tempSquares := (b.squares.set fromIndex none).set toIndex movingPiece
  let tempSquares :=
    match enPassantCaptureIndex with
    | some i => tempSquares.set i none
    | none => tempSquares
  let kingPos? :=
    if movingPiece.any (fun p => p.type == PieceType.king) then some toIndex
    else b.kingIndex? move.color
  let opponentColor := move.color.other
  match kingPos? with
  | some kingPos => !AttackDetector.isSquareAttacked tempSquares kingPos opponentColor
  | none => true

/-- `CommandValidator.getCandidateStartSquares` (`board.ts`). -/
def getCandidateStartSquares (b : Board) (startInfo : Option CommandInfo) :
    List Sq :=
  let activeColor := b.activeColor
  match startInfo with
  | none => b.getAllSquaresForColor activeColor
  | some (.square sq) =>
    if (b.getPieceAt sq).any (fun p => p.color == activeColor) then [sq] else []
  | some (.file f) => b.getSquaresOnFile f activeColor
  | some (.piece t) => b.findPieces t activeColor

/-- `CommandValidator.getAllSquares` (`board.ts`). -/
def getAllSquares : List Sq := (List.range 64).map SquareUtils.fromIndex

/-- `CommandValidator.getAllSquaresOnFile` (`board.ts`). -/
def getAllSquaresOnFile (f : Fin 8) : List Sq :=
  (List.range 8).map fun rank =>
    SquareUtils.fromIndex (SquareUtils.fileRankToIndex f.val rank)

/-- `CommandValidator.getCandidateEndSquares` (`board.ts`).  A piece kind
denotes the squares of opposite-color pieces of that kind (a target piece,
not a destination). -/
def getCandidateEndSquares (b : Board) (endInfo : Option CommandInfo) :
    List Sq :=
  match endInfo with
  | none => getAllSquares
  | some (.square sq) => [sq]
  | some (.file f) => getAllSquaresOnFile f
  | some (.piece t) => b.findPieces t b.activeColor.other

/-- `CommandValidator.matchesActionType` (`board.ts`). -/
def matchesActionType (b : Board) (startSquare endSquare : Sq)
    (isCapture : Bool) : Bool :=
  match b.getPieceAt startSquare with
  | none => false
  | some movingPiece =>
    let targetPiece := b.getPieceAt endSquare
    let hasOpponentPiece := targetPiece.any fun p => p.color != movingPiece.color
    if isCapture then
      hasOpponentPiece ||
        (movingPiece.type == PieceType.pawn &&
          b.enPassantSquare == some endSquare)
    else targetPiece.isNone || hasOpponentPiece

/-- `CommandValidator.findValidMovesForCommand` (`board.ts`): resolve start
and end candidates, filter by color, supported piece kind, start ≠ end,
action compatibility, movement predicate and legality. -/
def findValidMovesForCommand (b : Board) (command : Command) : List Move :=
  let candidateStarts := getCandidateStartSquares b command.startInfo
  if candidateStarts.isEmpty then []
  else
    let candidateEnds := getCandidateEndSquares b command.endInfo
    if candidateEnds.isEmpty then []
    else
      let isCapture := command.action == some CmdAction.capture
      let activeColor := b.activeColor
      candidateStarts.flatMap fun startSquare =>
        match b.getPieceAt startSquare with
        | none => []
        | some piece =>
          if piece.color != activeColor then []
          else if !PieceMoveValidator.isSupportedPieceType piece.type then []
          else
            candidateEnds.filterMap fun endSquare =>
              if startSquare == endSquare then none
              else if !matchesActionType b startSquare endSquare isCapture then none
              else if !PieceMoveValidator.canPieceMoveTo piece startSquare endSquare b then
                none
              else
                let move : Move := ⟨piece.type, piece.color, startSquare, endSquare⟩
                if isMoveLegal b move then some move else none

/-- `CommandValidator.isValidCommand` (`board.ts`): no action → reject;
Resign always valid; castles delegate to the castling helper; Move and
Capture accept iff exactly one candidate move survives; anything else
(Promote) falls through to reject. -/
def isValidCommand (b : Board) (command : Command) : Bool :=
  match command.action with
  | none => false
  | some CmdAction.resign => true
  | some CmdAction.shortCastle => CastlingHandler.canCastleKingside b
  | some CmdAction.longCastle => CastlingHandler.canCastleQueenside b
  | some CmdAction.move => (findValidMovesForCommand b command).length == 1
  | some CmdAction.capture => (findValidMovesForCommand b command).length == 1
  | some CmdAction.promote => false

end CommandValidator

/-- JS `\s` (ASCII range): the whitespace characters relevant to the
parser's regexes and `split`. -/
def isWhitespaceJS (c : Char) : Bool :=
  c == ' ' || c == '\t' || c == '\n' || c == '\r' ||
    c == Char.ofNat 11 || c == Char.ofNat 12

/-- JS `\w` (word character): letters, digits, underscore; the regex
word-boundary `\b` holds between a word and a non-word character. -/
def isWordChar (c : Char) : Bool :=
  ('a' ≤ c && c ≤ 'z') || ('A' ≤ c && c ≤ 'Z') || ('0' ≤ c && c ≤ '9') || c == '_'

/-- A `\b` immediately before a word character: start of string or a
non-word character to the left. -/
def boundaryBeforeOk (prev : Option Char) : Bool :=
  match prev with
  | none => true
  | some p => !isWordChar p

/-- A `\b` immediately after a word character: end of string or a non-word
character to the right. -/
def boundaryAfterOk (rest : List Char) : Bool :=
  match rest.head? with
  | none => true
  | some c => !isWordChar c

/-- JS `trim`: strip whitespace from both ends. -/
def trimChars (l : List Char) : List Char :=
  ((l.dropWhile isWhitespaceJS).reverse.dropWhile isWhitespaceJS).reverse

/-- One global-replace pass of `result.replace(new RegExp('\\b' + word +
'\\b', 'g'), digit)` (`preprocess`, step 1): scan left to
right, replace each whole-word occurrence (the words consist of word
characters, so `\b` reduces to the neighbour tests), continue after the
match.  `prev` is the character just left of the cursor. -/
def replaceWordGo (w : Char) (ws : List Char) (digit : Char) :
    Option Char → List Char → Nat → List Char
  | _, l, 0 => l
  | _, [], _ => []
  | prev, c :: rest, fuel + 1 =>
    if boundaryBeforeOk prev && (w :: ws).isPrefixOf (c :: rest) &&
        boundaryAfterOk (rest.drop ws.length) then
      digit :: replaceWordGo w ws digit (some (ws.getLastD w)) (rest.drop ws.length) fuel
    else
      c :: replaceWordGo w ws digit (some c) rest fuel

/-- Whole-word global replacement of one spoken number word by its digit.
The scan consumes at least one character per step, so a fuel equal to the
input length is never exhausted. -/
def replaceWordAll (word : List Char) (digit : Char) (l : List Char) : List Char :=
  match word with
  | [] => l
  | w :: ws => replaceWordGo w ws digit none l l.length

/-- `CommandParser.NUMBER_WORDS` (`command_parser.ts`), in object-entry
order. -/
def numberWords : List (List Char × Char) :=
  [("one".toList, '1'), ("two".toList, '2'), ("three".toList, '3'),
   ("four".toList, '4'), ("five".toList, '5'), ("six".toList, '6'),
   ("seven".toList, '7'), ("eight".toList, '8')]

/-- Is `c` one of the file letters `a`..`h`. -/
def isFileChar (c : Char) : Bool := 'a' ≤ c && c ≤ 'h'

/-- Is `c` one of the rank digits `1`..`8` (the regex class `[1-8]`). -/
def isRankDigit (c : Char) : Bool :=
  ['1', '2', '3', '4', '5', '6', '7', '8'].contains c

/-- The `\s+([1-8])\b` tail of the square-merging regex, after at least one
whitespace character has been seen: skip the rest of the whitespace run,
then require a rank digit followed by a boundary. -/
def wsDigitAfterWs : List Char → Option (Char × List Char)
  | [] => none
  | c :: rest =>
    if isWhitespaceJS c then wsDigitAfterWs rest
    else if isRankDigit c && boundaryAfterOk rest then some (c, rest)
    else none

/-- The `\s+([1-8])\b` tail of the square-merging regex from the start:
one or more whitespace characters, then a rank digit at a boundary.
(Backtracking the greedy `\s+` cannot help: shortening the run puts a
whitespace character where the digit must be.) -/
def wsDigit : List Char → Option (Char × List Char)
  | [] => none
  | c :: rest => if isWhitespaceJS c then wsDigitAfterWs rest else none

/-- One attempted match of `\b([a-h]?[a-h])\s+([1-8])\b`
(`preprocess`, step 2) at the current position (the leading
`\b` has been checked by the caller): the greedy optional file letter is
tried two-letters-first, then one; on success returns the replacement
`$1$2` and the remaining input. -/
def matchSquish : List Char → Option (List Char × List Char)
  | c1 :: c2 :: rest =>
    if isFileChar c1 && isFileChar c2 then
      match wsDigit rest with
      | some (d, rest') => some ([c1, c2, d], rest')
      | none =>
        match wsDigit (c2 :: rest) with
        | some (d, rest') => some ([c1, d], rest')
        | none => none
    else if isFileChar c1 then
      match wsDigit (c2 :: rest) with
      | some (d, rest') => some ([c1, d], rest')
      | none => none
    else none
  | _ => none

/-- The global scan of `preprocess` step 2: at each word
boundary try `matchSquish`; on a match emit the merged square and continue
after it (the last consumed character, the digit, becomes the left
context), else advance one character. -/
def mergeGo : Option Char → List Char → Nat → List Char
  | _, l, 0 => l
  | _, [], _ => []
  | prev, c :: rest, fuel + 1 =>
    if boundaryBeforeOk prev then
      match matchSquish (c :: rest) with
      | some (repl, rest') => repl ++ mergeGo (repl.getLastD c) rest' fuel
      | none => c :: mergeGo (some c) rest fuel
    else c :: mergeGo (some c) rest fuel

/-- `preprocess` (`command_parser.ts`): lowercase and trim,
replace each spoken number word by its digit (whole words, in order
`one`..`eight`), then merge separated file+rank patterns into squares.
Every `mergeGo` step consumes at least one character, so a fuel equal to
the input length is never exhausted. -/
def preprocess (input : List Char) : List Char :=
  let result := trimChars (input.map jsToLower)
  let result := numberWords.foldl (fun acc wd => replaceWordAll wd.1 wd.2 acc) result
  mergeGo none result result.length

/-- Does `hay` contain `needle` as a contiguous substring (JS
`String.prototype.includes`, and the unanchored regex test
`/castl(e|es|ing)?/` whose optional suffix never blocks a match). -/
def containsSub (hay needle : List Char) : Bool :=
  if needle.isPrefixOf hay then true
  else
    match hay with
    | [] => false
    | _ :: rest => containsSub rest needle

/-- Tokens of the command tokenizer, from `src/commands/types.ts`
(`type Token`; the `rank` variant of the source type is never produced by
the tokenizer and is omitted). -/
inductive Tok where
  | piece (p : PieceType)
  | square (s : Sq)
  | file (f : Fin 8)
  | action (a : CmdAction)
deriving DecidableEq, Repr

namespace CommandParser

/-- `CommandParser.PIECE_NAMES` (`command_parser.ts`); `night` covers the
common mishearing of `knight`. -/
def pieceNames : List (List Char × PieceType) :=
  [("king".toList, .king), ("queen".toList, .queen), ("rook".toList, .rook),
   ("bishop".toList, .bishop), ("knight".toList, .knight),
   ("night".toList, .knight), ("pawn".toList, .pawn)]

/-- `CommandParser.CAPTURE_KEYWORDS` (`command_parser.ts`). -/
def captureKeywords : List (List Char) :=
  ["takes".toList, "captures".toList, "capture".toList, "x".toList]

/-- `CommandParser.MOVE_KEYWORDS` (`command_parser.ts`). -/
def moveKeywords : List (List Char) :=
  ["to".toList, "moves".toList, "move".toList]

/-- A file letter as a `Fin 8` (callers have checked `isFileChar`). -/
def fileOfChar (c : Char) : Fin 8 :=
  match fileCharToNat c with
  | some f => if h : f < 8 then ⟨f, h⟩ else 0
  | none => 0

/-- `CommandParser.parseWord` (`command_parser.ts`): classify one word by
the first matching rule; a three-letter word that is a file letter followed
by a square expands into two tokens; anything else is discarded. -/
def parseWord (word : List Char) : Option (List Tok) :=
  match (pieceNames.find? (fun e => e.1 == word)).map (·.2) with
  | some p => some [Tok.piece p]
  | none =>
    if captureKeywords.contains word then some [Tok.action CmdAction.capture]
    else if moveKeywords.contains word then some [Tok.action CmdAction.move]
    else
      match nameToSq word with
      | some sq => some [Tok.square sq]
      | none =>
        match word with
        | [c] => if isFileChar c then some [Tok.file (fileOfChar c)] else none
        | [c1, c2, c3] =>
          if isFileChar c1 then
            match nameToSq [c2, c3] with
            | some sq => some [Tok.file (fileOfChar c1), Tok.square sq]
            | none => none
          else none
        | _ => none

/-- JS `input.split(/\s+/)` before the non-empty filter: pieces between
whitespace characters (adjacent whitespace yields empty pieces, removed by
the filter in `tokenize`). -/
def splitWs : List Char → List (List Char)
  | [] => [[]]
  | c :: rest =>
    match splitWs rest with
    | [] => [[c]]
    | h :: t => if isWhitespaceJS c then [] :: h :: t else (c :: h) :: t

/-- `CommandParser.tokenize` (`command_parser.ts`). -/
def tokenize (input : List Char) : List Tok :=
  ((splitWs input).filter (fun w => w.length > 0)).flatMap fun word =>
    (parseWord word).getD []

/-- `CommandParser.isCastleCommand` (`command_parser.ts`): the unanchored
test `/castl(e|es|ing)?/i.test(input)`, i.e. the input contains the letter
sequence `castl` anywhere (the optional suffix cannot block a match, and
the preprocessed input is already lowercase). -/
def isCastleCommand (input : List Char) : Bool :=
  containsSub input "castl".toList

/-- `CommandParser.parseCastleCommand` (`command_parser.ts`): long/queenside
iff the string contains `long`, `queenside`, `queen side` or `queen-side`;
otherwise short/kingside.  All other content is discarded. -/
def parseCastleCommand (input : List Char) : Command :=
  let normalized := input.map jsToLower
  let isLongCastle :=
    containsSub normalized "long".toList ||
    containsSub normalized "queenside".toList ||
    containsSub normalized "queen side".toList ||
    containsSub normalized "queen-side".toList
  { action := some (if isLongCastle then CmdAction.longCastle else CmdAction.shortCastle) }

/-- `CommandParser.tokensToCommandInfo` (`command_parser.ts`): from a token
group take the first piece if any, else the first square, else the first
file (priority piece > square > file). -/
def tokensToCommandInfo (tokens : List Tok) : Option CommandInfo :=
  if tokens.isEmpty then none
  else
    match tokens.find? (fun t => match t with | .piece _ => true | _ => false) with
    | some (.piece p) => some (CommandInfo.piece p)
    | _ =>
      match tokens.find? (fun t => match t with | .square _ => true | _ => false) with
      | some (.square sq) => some (CommandInfo.square sq)
      | _ =>
        match tokens.find? (fun t => match t with | .file _ => true | _ => false) with
        | some (.file f) => some (CommandInfo.file f)
        | _ => none

/-- `CommandParser.parseWithAction` (`command_parser.ts`): split the token
stream at the first action token; the left side becomes the start info,
the right side the end info. -/
def parseWithAction (tokens : List Tok) (actionIndex : Nat) : Command :=
  let beforeAction := tokens.take actionIndex
  let afterAction := tokens.drop (actionIndex + 1)
  let action :=
    match tokens.get? actionIndex with
    | some (.action a) => a
    | _ => CmdAction.move
  { startInfo := tokensToCommandInfo beforeAction
    action := some action
    endInfo := tokensToCommandInfo afterAction }

/-- `CommandParser.parseImplicitMove` (`command_parser.ts`): the implicit
Move patterns `[square]`, `[file, square]`, `[piece, square]`,
`[square, square]`, with a last-token fallback. -/
def parseImplicitMove (tokens : List Tok) : Command :=
  match tokens with
  | [Tok.square sq] =>
    { action := some CmdAction.move, endInfo := some (CommandInfo.square sq) }
  | [Tok.file f, Tok.square sq] =>
    { startInfo := some (CommandInfo.file f), action := some CmdAction.move,
      endInfo := some (CommandInfo.square sq) }
  | [Tok.piece p, Tok.square sq] =>
    { startInfo := some (CommandInfo.piece p), action := some CmdAction.move,
      endInfo := some (CommandInfo.square sq) }
  | [Tok.square s1, Tok.square s2] =>
    { startInfo := some (CommandInfo.square s1), action := some CmdAction.move,
      endInfo := some (CommandInfo.square s2) }
  | _ =>
    { startInfo :=
        if tokens.length > 1 then tokensToCommandInfo (tokens.dropLast) else none
      action := some CmdAction.move
      endInfo := tokensToCommandInfo (tokens.drop (tokens.length - 1)) }

/-- `CommandParser.parseCommand` (`command_parser.ts`): preprocess, then
dispatch — empty input and token-free input throw (modelled as
`Except.error` with the source's messages); castle, resign and promote
phrases return their commands; otherwise tokenize and assemble. -/
def parseCommand (input : List Char) : Except String Command :=
  let normalized := preprocess input
  if normalized.isEmpty then
    Except.error "Input command is empty or invalid."
  else if isCastleCommand normalized then
    Except.ok (parseCastleCommand normalized)
  else if normalized == "resign".toList || normalized == "i resign".toList then
    Except.ok { action := some CmdAction.resign }
  else if normalized == "promote".toList || normalized == "pawn promote".toList ||
      normalized == "promote pawn".toList then
    Except.ok { action := some CmdAction.promote }
  else
    let tokens := tokenize normalized
    if tokens.isEmpty then
      Except.error "No valid tokens found in input command."
    else
      match tokens.findIdx? (fun t => match t with | .action _ => true | _ => false) with
      | some actionIndex => Except.ok (parseWithAction tokens actionIndex)
      | none => Except.ok (parseImplicitMove tokens)

end CommandParser

/-- Is `c` one of the twelve piece letters `KQRBNPkqrbnp` (§6). -/
def validPieceLetter (c : Char) : Bool := ("KQRBNPkqrbnp".toList).contains c

/-- The number of board files a rank descriptor covers: a digit counts its
value, a piece letter counts one (§6). -/
def descWidth (desc : List Char) : Nat :=
  (desc.map fun c => if isRankDigit c then c.toNat - 48 else 1).sum

/-- No two adjacent digits in a rank descriptor (empty runs are written as
a single digit in the §6 format). -/
def noAdjDigits : List Char → Bool
  | [] => true
  | [_] => true
  | a :: b :: rest => !(isRankDigit a && isRankDigit b) && noAdjDigits (b :: rest)

/-- A legal rank descriptor per §6: digits `1`..`8` and piece letters, no
two adjacent digits, covering exactly eight files. -/
def validRankDesc (desc : List Char) : Bool :=
  desc.all (fun c => validPieceLetter c || isRankDigit c) &&
    noAdjDigits desc && descWidth desc == 8

/-- The board row a rank descriptor denotes: digits expand to empty runs,
letters to pieces (uppercase = White). -/
def descRow : List Char → List (Option Piece)
  | [] => []
  | c :: rest =>
    if isRankDigit c then List.replicate (c.toNat - 48) none ++ descRow rest
    else
      (match FENParser.pieceCharMap (jsToLower c) with
       | some t => some ⟨t, if eqOwnUpper c then Color.white else Color.black⟩
       | none => none) :: descRow rest

/-- A legal castling field per §6: any subset of `KQkq` concatenated in
that order, or `-`. -/
def validCastlingField (l : List Char) : Bool :=
  ([ "-", "K", "Q", "k", "q", "KQ", "Kk", "Kq", "Qk", "Qq", "kq",
     "KQk", "KQq", "Kkq", "Qkq", "KQkq" ].map String.toList).contains l

/-- A legal en-passant field per §6: a square name or `-`. -/
def validEpField (l : List Char) : Bool :=
  l == ['-'] || (nameToSq l).isSome

/-- The canonical decimal form of a non-negative integer: `0`, or digits
without a leading zero. -/
def isCanonicalNat (l : List Char) : Bool :=
  l == ['0'] || (!l.isEmpty && l.all isDigitChar && l.headD '0' != '0')

/-- The canonical decimal form of a positive integer: digits without a
leading zero, not `0`. -/
def isCanonicalPos (l : List Char) : Bool :=
  !l.isEmpty && l.all isDigitChar && l.headD '0' != '0'

/-- A legal six-field serialization per §6. -/
def validFEN (chars : List Char) : Bool :=
  match splitChar ' ' chars with
  | [pos, ac, cast, ep, hm, fm] =>
    (let ranks := splitChar '/' pos
     ranks.length == 8 && ranks.all validRankDesc) &&
    (ac == ['w'] || ac == ['b']) && validCastlingField cast &&
    validEpField ep && isCanonicalNat hm && isCanonicalPos fm
  | _ => false

/-- A legal serialization with the two optional trailing clock fields
missing (§6: they default to `0` and `1` on parse). -/
def validFENNoClocks (chars : List Char) : Bool :=
  match splitChar ' ' chars with
  | [pos, ac, cast, ep] =>
    (let ranks := splitChar '/' pos
     ranks.length == 8 && ranks.all validRankDesc) &&
    (ac == ['w'] || ac == ['b']) && validCastlingField cast && validEpField ep
  | _ => false

/-- The typed parse cells a board row at rank `r` gives rise to, starting
at file `f`: one cell per occupied square (reference semantics used to
relate `FENParser.parseRankChars` to `FENParser.genRankAux`). -/
def rowCellsTyped (r : Nat) : Nat → List (Option Piece) → List (Sq × FENParser.RawPiece)
  | _, [] => []
  | f, none :: rest => rowCellsTyped r (f + 1) rest
  | f, some p :: rest =>
    (SquareUtils.fromIndex (SquareUtils.fileRankToIndex f r), ⟨some p.type, p.color⟩)
      :: rowCellsTyped r (f + 1) rest

/-- Board fixture from a serialization, for concrete witnesses (total via a
default that no witness hits). -/
def fenBoard (s : String) : Board :=
  (Board.fromFEN s.toList).toOption.getD Board.initial

/-- Write the occupied cells of a board row into a piece array, starting
at file `f` of rank `r` (the effect of applying one rank's parsed cells;
reference semantics for the round-trip proofs). -/
def writeRow (r : Nat) : Nat → List (Option Piece) → List (Option Piece) → List (Option Piece)
  | _, [], arr => arr
  | f, none :: rest, arr => writeRow r (f + 1) rest arr
  | f, some p :: rest, arr =>
    writeRow r (f + 1) rest (arr.set (SquareUtils.fileRankToIndex f r) (some p))

/-- Write a list of (rank, row) pairs into a piece array, in order. -/
def writeRows : List (Nat × List (Option Piece)) → List (Option Piece) → List (Option Piece)
  | [], arr => arr
  | (r, row) :: rest, arr => writeRows rest (writeRow r 0 row arr)

/-- The spec §8 scenario-8 command: `{start: piece Queen, action: Move,
end: square d6}` (d6 = file 3, rank index 5). -/
def queenD6Cmd : Command :=
  { startInfo := some (CommandInfo.piece PieceType.queen)
    action := some CmdAction.move
    endInfo := some (CommandInfo.square ⟨3, 5⟩) }

/-- C1: the claim says `executeMove` returns false and leaves the position
unchanged for every move that is not legal in the current position,
including a move by the color not on move.  The code never checks the side
to move: from the initial position (White to move) the Black move
e7→e6 is accepted — `executeMove` returns `true` and mutates the board
(e7 becomes empty).  This evaluates the code at that failing input. -/
theorem executeMove_accepts_color_not_on_move :
    Board.initial.activeColor = Color.white ∧
    (Board.initial.executeMove
      ⟨PieceType.pawn, Color.black, ⟨4, 6⟩, ⟨4, 5⟩⟩).1 = true ∧
    ((Board.initial.executeMove
      ⟨PieceType.pawn, Color.black, ⟨4, 6⟩, ⟨4, 5⟩⟩).2).getPieceAt ⟨4, 6⟩ = none ∧
    ((Board.initial.executeMove
      ⟨PieceType.pawn, Color.black, ⟨4, 6⟩, ⟨4, 5⟩⟩).2).getPieceAt ⟨4, 5⟩ =
        some ⟨PieceType.pawn, Color.black⟩ :=
  ⟨rfl, rfl, rfl, rfl⟩

/-- C2: the claim says `getValidMovesForSquare` returns the empty list on a
square holding a piece whose color is not the side to move, and that every
returned move's color equals the side to move.  The code generates moves
for whatever piece sits on the square: from the initial position (White to
move), the Black-pawn square a7 yields two moves, all colored Black.  This
evaluates the code at that failing input. -/
theorem getValidMovesForSquare_wrong_color_nonempty :
    Board.initial.activeColor = Color.white ∧
    (Board.initial.getValidMovesForSquare ⟨0, 6⟩).length = 2 ∧
    ∀ m ∈ Board.initial.getValidMovesForSquare ⟨0, 6⟩, m.color = Color.black := by
  decide

/-- C3: the claim says no insufficient-material draw is reported for king
and queen versus king.  The source's condition `checkPieces[0][0] ===
PieceType.Bishop || PieceType.Knight` is truthy whenever one side has a
bare king (the spec's §9 notes the slip), so K+Q vs K is reported as an
insufficient-material draw even though legal moves exist and the halfmove
clock is 0. -/
theorem isGameOver_draw_king_queen_vs_king :
    (Board.fromFEN ("k7/8/8/8/8/8/8/KQ6 w - - 0 1".toList)).map
      (fun b => (b.isGameOver, b.getAllValidMoves.isEmpty, b.halfMoveClock)) =
      Except.ok (⟨true, some GameOverReason.draw⟩, false, 0) := rfl

/-- C4: for Move/Capture commands, `isValidCommand` accepts iff exactly one
candidate move survives the enumeration; and from
`3Q4/8/8/8/3Q4/8/8/4K2k w - - 0 1` the command `{start: piece Queen,
action: Move, end: square d6}` is rejected because both queens reach d6
(two candidates). -/
theorem isValidCommand_iff_unique_candidate :
    (∀ (b : Board) (cmd : Command),
      cmd.action = some CmdAction.move ∨ cmd.action = some CmdAction.capture →
      (CommandValidator.isValidCommand b cmd = true ↔
        (CommandValidator.findValidMovesForCommand b cmd).length = 1)) ∧
    (Board.fromFEN ("3Q4/8/8/8/3Q4/8/8/4K2k w - - 0 1".toList)).map
      (fun b => (CommandValidator.isValidCommand b queenD6Cmd,
        (CommandValidator.findValidMovesForCommand b queenD6Cmd).length)) =
      Except.ok (false, 2) := by
  constructor
  · intro b cmd h
    rcases h with h | h <;>
      simp [CommandValidator.isValidCommand, h, Nat.beq_eq_true_eq]
  · rfl

/-- C4 witness: the equivalence applied at a concrete board and command. -/
theorem isValidCommand_iff_unique_candidate_witness :
    CommandValidator.isValidCommand Board.initial queenD6Cmd = true ↔
      (CommandValidator.findValidMovesForCommand Board.initial queenD6Cmd).length = 1 :=
  isValidCommand_iff_unique_candidate.1 Board.initial queenD6Cmd (Or.inl rfl)

/-- C7 counterexample: the claim says every malformed serialization makes
board construction fail with an explicit hard parse error.  The string
`8/8/8/8/8/8/8/8/8 w - - 0 1` has nine rank descriptors — malformed per §6
— yet `fromFEN` silently produces a position. -/
theorem fromFEN_silently_accepts_nine_ranks :
    validFEN ("8/8/8/8/8/8/8/8/8 w - - 0 1".toList) = false ∧
    (Board.fromFEN ("8/8/8/8/8/8/8/8/8 w - - 0 1".toList)).isOk = true := by
  constructor
  · decide
  · rfl

/-- C7 amended: a malformed rank-descriptor letter (outside `KQRBNPkqrbnp`)
does make construction fail, but with an incidental TypeError from the
cache update rather than a parse error, and malformed strings are not
rejected in general: a nine-rank string is silently accepted. -/
theorem fromFEN_malformed_mixed_behavior :
    validFEN ("8/8/8/zzzzzzzz/8/8/8/8 w - - 0 1".toList) = false ∧
    Board.fromFEN ("8/8/8/zzzzzzzz/8/8/8/8 w - - 0 1".toList) =
      Except.error "TypeError: cannot add to undefined piece-index set" ∧
    validFEN ("rnbqkbnr/pppppppp/8/8/8/8/PPPPPPPP/RNBQKBNR w KQkq - 0 1".toList)
      = true ∧
    (Board.fromFEN ("8/8/8/8/8/8/8/8/8 w - - 0 1".toList)).isOk = true := by
  refine ⟨by decide, rfl, by decide, rfl⟩

/-- C8 counterexample: the claim says a non-empty input outside the grammar
yields a fallback Move command with no start/end info.  The parser instead
throws: on `hello` (zero recognized tokens) `parseCommand` raises the
explicit no-valid-tokens error and returns no command at all. -/
theorem parseCommand_gibberish_throws :
    CommandParser.parseCommand ("hello".toList) =
      Except.error "No valid tokens found in input command." := rfl

/-- C8 amended: for every input whose preprocessed form is non-empty, is
not a castle/resign/promote phrase, and yields zero recognized tokens,
`parseCommand` fails with the explicit no-valid-tokens error (an
`Except.error`, modelling the thrown JS `Error`) instead of returning a
fallback command; consequently no command reaches the validator. -/
theorem parseCommand_zero_tokens_error (input : List Char)
    (h1 : (preprocess input).isEmpty = false)
    (h2 : CommandParser.isCastleCommand (preprocess input) = false)
    (h3 : preprocess input ≠ "resign".toList)
    (h4 : preprocess input ≠ "i resign".toList)
    (h5 : preprocess input ≠ "promote".toList)
    (h6 : preprocess input ≠ "pawn promote".toList)
    (h7 : preprocess input ≠ "promote pawn".toList)
    (h8 : CommandParser.tokenize (preprocess input) = []) :
    CommandParser.parseCommand input =
      Except.error "No valid tokens found in input command." := by
  unfold CommandParser.parseCommand
  rw [if_neg (by simp [h1]), if_neg (by simp [h2]),
    if_neg (by simp only [Bool.or_eq_true, beq_iff_eq, not_or]; exact ⟨h3, h4⟩),
    if_neg (by simp only [Bool.or_eq_true, beq_iff_eq, not_or]; exact ⟨⟨h5, h6⟩, h7⟩),
    if_pos (by simp [h8])]

/-- C8 witness: the amended statement applied at the concrete input
`hello`. -/
theorem parseCommand_zero_tokens_error_witness :
    CommandParser.parseCommand ("hello".toList) =
      Except.error "No valid tokens found in input command." :=
  parseCommand_zero_tokens_error ("hello".toList) (by decide) (by decide)
    (by decide) (by decide) (by decide) (by decide) (by decide) (by decide)

/-- C9: `knight f three` preprocesses to `knight f3` (spoken digit words
replaced as whole words, then file+rank merged), tokenizes to
`[piece Knight, square f3]`, and parses to `{start: piece Knight, action:
Move, end: square f3}`; and every `[piece, square]` implicit-move token
list yields that command shape. -/
theorem parseCommand_knight_f_three :
    preprocess ("knight f three".toList) = "knight f3".toList ∧
    CommandParser.tokenize ("knight f3".toList) =
      [Tok.piece PieceType.knight, Tok.square ⟨5, 2⟩] ∧
    CommandParser.parseCommand ("knight f three".toList) =
      Except.ok ⟨some (CommandInfo.piece PieceType.knight), some CmdAction.move,
        some (CommandInfo.square ⟨5, 2⟩)⟩ ∧
    ∀ (p : PieceType) (sq : Sq),
      CommandParser.parseImplicitMove [Tok.piece p, Tok.square sq] =
        ⟨some (CommandInfo.piece p), some CmdAction.move,
          some (CommandInfo.square sq)⟩ :=
  ⟨by decide, by decide, rfl, fun _ _ => rfl⟩

/-- C10: castle detection is an unanchored substring test — whenever the
preprocessed (lowercased) input contains `castl` anywhere, `parseCommand`
returns a bare castle command (discarding all other information), long iff
the string contains `long`, `queenside`, `queen side` or `queen-side`,
short otherwise; e.g. `newcastle` and `e2 castle e4` give ShortCastle. -/
theorem parseCommand_castle_unanchored_substring :
    (∀ input : List Char,
      CommandParser.isCastleCommand (preprocess input) = true →
      CommandParser.parseCommand input = Except.ok
        { startInfo := none
          action := some (if containsSub ((preprocess input).map jsToLower) ("long".toList) ||
              containsSub ((preprocess input).map jsToLower) ("queenside".toList) ||
              containsSub ((preprocess input).map jsToLower) ("queen side".toList) ||
              containsSub ((preprocess input).map jsToLower) ("queen-side".toList)
            then CmdAction.longCastle else CmdAction.shortCastle)
          endInfo := none }) ∧
    CommandParser.parseCommand ("newcastle".toList) =
      Except.ok { action := some CmdAction.shortCastle } ∧
    CommandParser.parseCommand ("e2 castle e4".toList) =
      Except.ok { action := some CmdAction.shortCastle } ∧
    CommandParser.parseCommand ("queen side castles".toList) =
      Except.ok { action := some CmdAction.longCastle } := by
  refine ⟨fun input h => ?_, rfl, rfl, rfl⟩
  have hne : (preprocess input).isEmpty = false := by
    cases hn : preprocess input with
    | nil =>
      rw [hn] at h
      exact absurd h (by decide)
    | cons c rest => simp
  unfold CommandParser.parseCommand
  rw [if_neg (by simp [hne]), if_pos h]
  rfl

/-- C10 witness: the substring rule applied at the concrete input
`newcastle` (which contains `castl` but is no castling utterance). -/
theorem parseCommand_castle_unanchored_substring_witness :
    CommandParser.isCastleCommand (preprocess ("newcastle".toList)) = true ∧
    CommandParser.parseCommand ("newcastle".toList) = Except.ok
      { startInfo := none
        action := some (if containsSub ((preprocess ("newcastle".toList)).map jsToLower) ("long".toList) ||
            containsSub ((preprocess ("newcastle".toList)).map jsToLower) ("queenside".toList) ||
            containsSub ((preprocess ("newcastle".toList)).map jsToLower) ("queen side".toList) ||
            containsSub ((preprocess ("newcastle".toList)).map jsToLower) ("queen-side".toList)
          then CmdAction.longCastle else CmdAction.shortCastle)
        endInfo := none } :=
  ⟨by decide,
    parseCommand_castle_unanchored_substring.1 ("newcastle".toList) (by decide)⟩

/-- C5: for the side to move, with its king on the home e-square (which
any position carrying the castling right satisfies, §3 invariants),
kingside castling is available iff the right is set, the king is not in
check, f and g on the home rank are unattacked and empty; queenside iff
the right is set, the king is not in check, c and d are unattacked, and
b, c, d are empty. -/
theorem canCastle_iff_rights_check_path_clear (b : Board)
    (hk : b.kingIndex? b.activeColor =
      some (SquareUtils.fileRankToIndex 4 (if b.activeColor == Color.white then 0 else 7))) :
    (CastlingHandler.canCastleKingside b = true ↔
      ((if b.activeColor == Color.white then b.castlingRights.whiteKingside
        else b.castlingRights.blackKingside) = true ∧
       b.isInCheck = false ∧
       AttackDetector.isSquareAttacked b.squares
         (SquareUtils.fileRankToIndex 5 (if b.activeColor == Color.white then 0 else 7))
         b.activeColor.other = false ∧
       AttackDetector.isSquareAttacked b.squares
         (SquareUtils.fileRankToIndex 6 (if b.activeColor == Color.white then 0 else 7))
         b.activeColor.other = false ∧
       b.getPieceAtIndex
         (SquareUtils.fileRankToIndex 5 (if b.activeColor == Color.white then 0 else 7)) = none ∧
       b.getPieceAtIndex
         (SquareUtils.fileRankToIndex 6 (if b.activeColor == Color.white then 0 else 7)) = none)) ∧
    (CastlingHandler.canCastleQueenside b = true ↔
      ((if b.activeColor == Color.white then b.castlingRights.whiteQueenside
        else b.castlingRights.blackQueenside) = true ∧
       b.isInCheck = false ∧
       AttackDetector.isSquareAttacked b.squares
         (SquareUtils.fileRankToIndex 2 (if b.activeColor == Color.white then 0 else 7))
         b.activeColor.other = false ∧
       AttackDetector.isSquareAttacked b.squares
         (SquareUtils.fileRankToIndex 3 (if b.activeColor == Color.white then 0 else 7))
         b.activeColor.other = false ∧
       b.getPieceAtIndex
         (SquareUtils.fileRankToIndex 1 (if b.activeColor == Color.white then 0 else 7)) = none ∧
       b.getPieceAtIndex
         (SquareUtils.fileRankToIndex 2 (if b.activeColor == Color.white then 0 else 7)) = none ∧
       b.getPieceAtIndex
         (SquareUtils.fileRankToIndex 3 (if b.activeColor == Color.white then 0 else 7)) = none)) := by
  have hic : b.isInCheck =
      AttackDetector.isSquareAttacked b.squares
        (SquareUtils.fileRankToIndex 4 (if b.activeColor == Color.white then 0 else 7))
        b.activeColor.other := by
    unfold Board.isInCheck
    rw [hk]
    rfl
  cases hac : b.activeColor <;>
    simp only [hac, beq_self_eq_true, if_true, beq_iff_eq, reduceCtorEq, if_false] at hic ⊢ <;>
    · rw [hic]
      unfold CastlingHandler.canCastleKingside CastlingHandler.canCastleQueenside
        CastlingHandler.validateCastlingPath
      simp only [hac, beq_self_eq_true, if_true, beq_iff_eq, reduceCtorEq, if_false,
        Bool.not_eq_true', Bool.and_eq_true, Option.isNone_iff_eq_none]
      constructor <;>
      · constructor <;> intro hh
        · split at hh <;> simp_all
        · obtain ⟨h1, h2, h3⟩ := hh
          simp_all

/-- C5 witness: the equivalence applied at the castling fixture of §8
(scenario 3), where White may castle both ways. -/
theorem canCastle_iff_rights_check_path_clear_witness :
    (fenBoard "r3k2r/pppppppp/8/8/8/8/PPPPPPPP/R3K2R w KQkq - 0 1").kingIndex?
      (fenBoard "r3k2r/pppppppp/8/8/8/8/PPPPPPPP/R3K2R w KQkq - 0 1").activeColor =
      some (SquareUtils.fileRankToIndex 4
        (if (fenBoard "r3k2r/pppppppp/8/8/8/8/PPPPPPPP/R3K2R w KQkq - 0 1").activeColor
            == Color.white then 0 else 7)) ∧
    CastlingHandler.canCastleKingside
      (fenBoard "r3k2r/pppppppp/8/8/8/8/PPPPPPPP/R3K2R w KQkq - 0 1") = true :=
  ⟨by decide,
    ((canCastle_iff_rights_check_path_clear
      (fenBoard "r3k2r/pppppppp/8/8/8/8/PPPPPPPP/R3K2R w KQkq - 0 1")
      (by decide)).1).mpr (by exact ⟨by decide, by decide, by decide, by decide, by decide, by decide⟩)⟩

theorem splitChar_ne_nil (sep : Char) (l : List Char) : splitChar sep l ≠ [] := by
  cases l with
  | nil => simp [splitChar]
  | cons c rest =>
    simp only [splitChar]
    split
    · simp
    · split <;> simp

theorem joinSep_splitChar (sep : Char) (l : List Char) :
    joinSep sep (splitChar sep l) = l := by
  induction l with
  | nil => rfl
  | cons c rest ih =>
    simp only [splitChar]
    split
    case h_1 heq => exact absurd heq (splitChar_ne_nil sep rest)
    case h_2 h t heq =>
      rw [heq] at ih
      by_cases hc : c = sep
      · rw [if_pos (by simp [hc])]
        show [] ++ sep :: joinSep sep (h :: t) = c :: rest
        rw [ih, hc]
        rfl
      · rw [if_neg (by simp [hc])]
        cases t with
        | nil =>
          show c :: h = c :: rest
          simpa [joinSep] using ih
        | cons t0 ts =>
          show (c :: h) ++ sep :: joinSep sep (t0 :: ts) = c :: rest
          have ih' : h ++ sep :: joinSep sep (t0 :: ts) = rest := ih
          simp [← ih']

theorem splitChar_append_cons (sep : Char) (x y : List Char)
    (hx : ∀ c ∈ x, c ≠ sep) :
    splitChar sep (x ++ sep :: y) = x :: splitChar sep y := by
  induction x with
  | nil =>
    simp only [List.nil_append, splitChar]
    split
    case h_1 heq => exact absurd heq (splitChar_ne_nil sep y)
    case h_2 h t heq => rw [← heq]; simp
  | cons c rest ih =>
    have hc : c ≠ sep := hx c (by simp)
    show splitChar sep (c :: (rest ++ sep :: y)) = (c :: rest) :: splitChar sep y
    simp only [splitChar]
    rw [ih (fun d hd => hx d (by simp [hd]))]
    simp [hc]

theorem natToDecimalAux_fuel (n : Nat) : ∀ fuel fuel', n < fuel → n < fuel' →
    natToDecimalAux n fuel = natToDecimalAux n fuel' := by
  induction n using Nat.strong_induction_on with
  | _ n ih =>
    intro fuel fuel' hf hf'
    match fuel, fuel' with
    | f + 1, f' + 1 =>
      simp only [natToDecimalAux]
      by_cases h : n < 10
      · simp [h]
      · have hd : n / 10 < n := Nat.div_lt_self (by omega) (by norm_num)
        rw [if_neg h, if_neg h, ih (n / 10) hd f f' (by omega) (by omega)]

theorem natToDecimal_eq (n : Nat) :
    natToDecimal n = if n < 10 then [digitChar n]
      else natToDecimal (n / 10) ++ [digitChar (n % 10)] := by
  by_cases h : n < 10
  · simp [natToDecimal, natToDecimalAux, h]
  · have hd : n / 10 < n := Nat.div_lt_self (by omega) (by norm_num)
    rw [if_neg h]
    show natToDecimalAux n (n + 1) = _
    rw [show natToDecimalAux n (n + 1) =
        natToDecimalAux (n / 10) n ++ [digitChar (n % 10)] by
      simp [natToDecimalAux, h]]
    rw [natToDecimalAux_fuel (n / 10) n (n / 10 + 1) hd (by omega)]
    rfl

theorem digitChar_isDigit (k : Nat) (h : k ≤ 9) : isDigitChar (digitChar k) = true := by
  interval_cases k <;> decide

theorem digitChar_val (k : Nat) (h : k ≤ 9) : (digitChar k).toNat - 48 = k := by
  interval_cases k <;> decide

theorem mem_of_isDigitChar (d : Char) (h : isDigitChar d = true) :
    d ∈ ['0', '1', '2', '3', '4', '5', '6', '7', '8', '9'] := by
  simpa [isDigitChar] using h

theorem digitChar_toNat_sub (d : Char) (h : isDigitChar d = true) :
    digitChar (d.toNat - 48) = d := by
  have hm := mem_of_isDigitChar d h
  fin_cases hm <;> decide

theorem natToDecimal_all_digits (n : Nat) :
    ∀ c ∈ natToDecimal n, isDigitChar c = true := by
  induction n using Nat.strong_induction_on with
  | _ n ih =>
    intro c hc
    rw [natToDecimal_eq] at hc
    by_cases h : n < 10
    · rw [if_pos h] at hc
      simp only [List.mem_singleton] at hc
      subst hc
      exact digitChar_isDigit n (by omega)
    · rw [if_neg h] at hc
      rcases List.mem_append.mp hc with hc | hc
      · exact ih (n / 10) (Nat.div_lt_self (by omega) (by norm_num)) c hc
      · simp only [List.mem_singleton] at hc
        subst hc
        exact digitChar_isDigit (n % 10) (by omega)

theorem natToDecimal_ne_nil (n : Nat) : natToDecimal n ≠ [] := by
  rw [natToDecimal_eq]
  split <;> simp

theorem decToNat_append_digit (xs : List Char) (d : Char) :
    decToNat (xs ++ [d]) = decToNat xs * 10 + (d.toNat - 48) := by
  simp [decToNat, List.foldl_append]

theorem decToNat_natToDecimal (n : Nat) : decToNat (natToDecimal n) = n := by
  induction n using Nat.strong_induction_on with
  | _ n ih =>
    rw [natToDecimal_eq]
    by_cases h : n < 10
    · rw [if_pos h]
      show 0 * 10 + ((digitChar n).toNat - 48) = n
      rw [digitChar_val n (by omega)]
      omega
    · rw [if_neg h, decToNat_append_digit,
        ih (n / 10) (Nat.div_lt_self (by omega) (by norm_num)),
        digitChar_val (n % 10) (by omega)]
      omega

theorem takeWhile_all {p : Char → Bool} (l : List Char)
    (h : ∀ c ∈ l, p c = true) : l.takeWhile p = l := by
  induction l with
  | nil => rfl
  | cons c rest ih =>
    rw [List.takeWhile_cons, if_pos (h c (by simp)), ih (fun d hd => h d (by simp [hd]))]

theorem parseIntJS_natToDecimal (n : Nat) : parseIntJS (natToDecimal n) = some n := by
  unfold parseIntJS
  rw [takeWhile_all (natToDecimal n) (natToDecimal_all_digits n)]
  rw [if_neg (by simp [natToDecimal_ne_nil n]), decToNat_natToDecimal]

theorem decToNat_foldl_ge (rest : List Char) :
    ∀ acc : Nat, acc ≤ rest.foldl (fun a c => a * 10 + (c.toNat - 48)) acc := by
  induction rest with
  | nil => intro acc; simp
  | cons c cs ih =>
    intro acc
    calc acc ≤ acc * 10 + (c.toNat - 48) := by omega
    _ ≤ _ := ih _

theorem decToNat_pos (l : List Char) (hd : ∀ c ∈ l, isDigitChar c = true)
    (hne : l ≠ []) (h0 : l.headD '0' ≠ '0') : 1 ≤ decToNat l := by
  match l with
  | [] => exact absurd rfl hne
  | c :: rest =>
    have hc := mem_of_isDigitChar c (hd c (by simp))
    have hcv : 1 ≤ c.toNat - 48 := by
      simp only [List.headD_cons] at h0
      fin_cases hc <;> simp_all
    calc 1 ≤ 0 * 10 + (c.toNat - 48) := by omega
    _ ≤ _ := decToNat_foldl_ge rest _

theorem natToDecimal_decToNat (l : List Char) (h : isCanonicalNat l = true) :
    natToDecimal (decToNat l) = l := by
  induction l using List.reverseRecOn with
  | nil => simp [isCanonicalNat] at h
  | append_singleton xs d ih =>
    by_cases h0 : xs ++ [d] = ['0']
    · have : xs = [] ∧ d = '0' := by
        cases xs with
        | nil => simpa using h0
        | cons a as => simp at h0
      rw [this.1, this.2]
      decide
    · have h' : (xs ++ [d]).all isDigitChar = true ∧ (xs ++ [d]).headD '0' ≠ '0' := by
        simp only [isCanonicalNat, Bool.or_eq_true, beq_iff_eq] at h
        rcases h with h | h
        · exact absurd h h0
        · simp only [Bool.and_eq_true, bne_iff_ne, ne_eq] at h
          exact ⟨h.1.2, h.2⟩
      have hdd : isDigitChar d = true := by
        have := h'.1
        simp only [List.all_eq_true] at this
        exact this d (by simp)
      cases xs with
      | nil =>
        simp only [List.nil_append] at h' ⊢
        have hv9 : d.toNat - 48 ≤ 9 := by
          have := mem_of_isDigitChar d hdd
          fin_cases this <;> decide
        show natToDecimal (0 * 10 + (d.toNat - 48)) = [d]
        rw [natToDecimal_eq, if_pos (by omega)]
        simp [digitChar_toNat_sub d hdd]
      | cons x0 xs' =>
        have hxs : isCanonicalNat (x0 :: xs') = true := by
          simp only [isCanonicalNat, Bool.or_eq_true, Bool.and_eq_true, bne_iff_ne, ne_eq]
          right
          refine ⟨⟨by simp, ?_⟩, ?_⟩
          · have := h'.1
            simp only [List.all_eq_true] at this ⊢
            intro c hcm
            exact this c (by
              simp only [List.mem_cons, List.mem_append, List.mem_singleton] at hcm ⊢
              tauto)
          · have := h'.2
            simpa using this
        have hq : 1 ≤ decToNat (x0 :: xs') := by
          apply decToNat_pos
          · intro c hcm
            have := h'.1
            simp only [List.all_eq_true] at this
            exact this c (by
              simp only [List.mem_cons, List.mem_append, List.mem_singleton] at hcm ⊢
              tauto)
          · simp
          · simpa using h'.2
        have hv9 : d.toNat - 48 ≤ 9 := by
          have := mem_of_isDigitChar d hdd
          fin_cases this <;> decide
        rw [decToNat_append_digit]
        rw [natToDecimal_eq, if_neg (by omega)]
        have hdiv : (decToNat (x0 :: xs') * 10 + (d.toNat - 48)) / 10 = decToNat (x0 :: xs') := by
          omega
        have hmod : (decToNat (x0 :: xs') * 10 + (d.toNat - 48)) % 10 = d.toNat - 48 := by
          omega
        rw [hdiv, hmod, ih hxs, digitChar_toNat_sub d hdd]

theorem pieceChar_facts (p : Piece) :
    FENParser.pieceCharMap (jsToLower (FENParser.pieceChar p)) = some p.type ∧
    eqOwnUpper (FENParser.pieceChar p) = (p.color == Color.white) ∧
    isDigitChar (FENParser.pieceChar p) = false ∧
    FENParser.pieceChar p ≠ ' ' ∧ FENParser.pieceChar p ≠ '/' := by
  obtain ⟨t, c⟩ := p
  cases t <;> cases c <;> decide

theorem splitChar_no_sep (sep : Char) (x : List Char) (hx : ∀ c ∈ x, c ≠ sep) :
    splitChar sep x = [x] := by
  induction x with
  | nil => rfl
  | cons c rest ih =>
    simp only [splitChar]
    rw [ih (fun d hd => hx d (by simp [hd]))]
    simp [hx c (by simp)]

theorem genRankAux_replicate (k : Nat) (row : List (Option Piece)) :
    ∀ c, FENParser.genRankAux (List.replicate k none ++ row) c =
      FENParser.genRankAux row (c + k) := by
  induction k with
  | zero => intro c; simp
  | succ k ih =>
    intro c
    rw [List.replicate_succ, List.cons_append]
    show FENParser.genRankAux (List.replicate k none ++ row) (c + 1) = _
    rw [ih (c + 1)]
    congr 1
    omega

theorem genRankAux_chars (row : List (Option Piece)) :
    ∀ c, c + row.length ≤ 8 →
      ∀ ch ∈ FENParser.genRankAux row c, ch ≠ ' ' ∧ ch ≠ '/' := by
  induction row with
  | nil =>
    intro c hc ch hm
    simp only [FENParser.genRankAux] at hm
    split at hm
    · simp only [List.mem_singleton] at hm
      subst hm
      have : c ≤ 8 := by simpa using hc
      interval_cases c <;> exact ⟨by decide, by decide⟩
    · simp at hm
  | cons cell rest ih =>
    intro c hc ch hm
    cases cell with
    | none =>
      exact ih (c + 1) (by simpa [Nat.add_comm, Nat.add_left_comm] using hc) ch hm
    | some p =>
      simp only [FENParser.genRankAux, List.mem_append, List.mem_cons] at hm
      rcases hm with hm | hm | hm
      · split at hm
        · simp only [List.mem_singleton] at hm
          subst hm
          have : c ≤ 8 := by simp at hc; omega
          interval_cases c <;> exact ⟨by decide, by decide⟩
        · simp at hm
      · subst hm
        exact ⟨(pieceChar_facts p).2.2.2.1, (pieceChar_facts p).2.2.2.2⟩
      · exact ih 0 (by simp at hc ⊢; omega) ch hm

theorem parseRankChars_digit_cons (r : Nat) (d : Char) (rest : List Char)
    (f : Nat) (hd : isDigitChar d = true) :
    FENParser.parseRankChars r (d :: rest) f =
      FENParser.parseRankChars r rest (f + (d.toNat - 48)) := by
  simp [FENParser.parseRankChars, hd]

theorem parseRankChars_other_cons (r : Nat) (c : Char) (rest : List Char)
    (f : Nat) (hc : isDigitChar c = false) :
    FENParser.parseRankChars r (c :: rest) f =
      (SquareUtils.fromIndex (SquareUtils.fileRankToIndex f r),
        ⟨FENParser.pieceCharMap (jsToLower c),
         if eqOwnUpper c then Color.white else Color.black⟩)
        :: FENParser.parseRankChars r rest (f + 1) := by
  simp [FENParser.parseRankChars, hc]

theorem parseRankChars_genRankAux (r : Nat) (row : List (Option Piece)) :
    ∀ c f, c + row.length ≤ 8 →
      FENParser.parseRankChars r (FENParser.genRankAux row c) f =
        rowCellsTyped r (f + c) row := by
  induction row with
  | nil =>
    intro c f hc
    have h9 : c ≤ 9 := by simp at hc; omega
    simp only [FENParser.genRankAux]
    by_cases h : c > 0
    · rw [if_pos (by simpa using h)]
      rw [parseRankChars_digit_cons r _ _ _ (digitChar_isDigit c h9),
        digitChar_val c h9]
      rfl
    · rw [if_neg (by simpa using h)]
      have : c = 0 := by omega
      subst this
      rfl
  | cons cell rest ih =>
    intro c f hc
    cases cell with
    | none =>
      show FENParser.parseRankChars r (FENParser.genRankAux rest (c + 1)) f = _
      rw [ih (c + 1) f (by simp at hc ⊢; omega)]
      rfl
    | some p =>
      have h9 : c ≤ 9 := by simp at hc; omega
      have hstep : FENParser.parseRankChars r
          (FENParser.pieceChar p :: FENParser.genRankAux rest 0) (f + c) =
          rowCellsTyped r (f + c) (some p :: rest) := by
        rw [parseRankChars_other_cons r _ _ _ (pieceChar_facts p).2.2.1,
          (pieceChar_facts p).1, (pieceChar_facts p).2.1,
          ih 0 (f + c + 1) (by simp at hc ⊢; omega)]
        have hcol : (if (p.color == Color.white) = true
            then Color.white else Color.black) = p.color := by
          cases hx : p.color <;> simp_all
        rw [hcol]
        rfl
      simp only [FENParser.genRankAux]
      by_cases h : c > 0
      · rw [if_pos (by simpa using h)]
        show FENParser.parseRankChars r (digitChar c ::
          (FENParser.pieceChar p :: FENParser.genRankAux rest 0)) f = _
        rw [parseRankChars_digit_cons r _ _ _ (digitChar_isDigit c h9),
          digitChar_val c h9]
        exact hstep
      · rw [if_neg (by simpa using h)]
        have : c = 0 := by omega
        subst this
        simpa using hstep

theorem applyCells_append (xs ys : List (Sq × FENParser.RawPiece)) :
    ∀ arr, Board.applyCells arr (xs ++ ys) =
      match Board.applyCells arr xs with
      | Except.ok a => Board.applyCells a ys
      | Except.error e => Except.error e := by
  induction xs with
  | nil => intro arr; rfl
  | cons cell rest ih =>
    intro arr
    show Board.applyCells arr (cell :: (rest ++ ys)) = _
    cases h : cell.2.typeOpt with
    | none => simp [Board.applyCells, h]
    | some t => simp [Board.applyCells, h, ih]

theorem toIndex_fromIndex (i : Nat) (h : i < 64) :
    SquareUtils.toIndex (SquareUtils.fromIndex i) = i := by
  simp only [SquareUtils.toIndex, SquareUtils.fromIndex]
  omega

theorem applyCells_rowCellsTyped (r : Nat) (row : List (Option Piece)) (hr : r < 8) :
    ∀ f arr, f + row.length ≤ 8 →
      Board.applyCells arr (rowCellsTyped r f row) =
        Except.ok (writeRow r f row arr) := by
  induction row with
  | nil => intro f arr _; rfl
  | cons cell rest ih =>
    intro f arr hf
    cases cell with
    | none => exact ih (f + 1) arr (by simp at hf ⊢; omega)
    | some p =>
      have hidx : SquareUtils.toIndex (SquareUtils.fromIndex
          (SquareUtils.fileRankToIndex f r)) = SquareUtils.fileRankToIndex f r := by
        apply toIndex_fromIndex
        simp only [SquareUtils.fileRankToIndex]
        simp only [List.length_cons] at hf
        omega
      show Board.applyCells (arr.set (SquareUtils.toIndex (SquareUtils.fromIndex
        (SquareUtils.fileRankToIndex f r))) (some ⟨p.type, p.color⟩))
        (rowCellsTyped r (f + 1) rest) = _
      rw [hidx]
      exact ih (f + 1) _ (by simp at hf ⊢; omega)

theorem writeRow_length (r : Nat) (row : List (Option Piece)) :
    ∀ f arr, (writeRow r f row arr).length = arr.length := by
  induction row with
  | nil => intro f arr; rfl
  | cons cell rest ih =>
    intro f arr
    cases cell with
    | none => exact ih (f + 1) arr
    | some p => rw [writeRow, ih (f + 1) _, List.length_set]

theorem writeRow_getElem_outside (r : Nat) (row : List (Option Piece)) :
    ∀ f arr i, (i < 8 * r + f ∨ 8 * r + f + row.length ≤ i) →
      (writeRow r f row arr)[i]? = arr[i]? := by
  induction row with
  | nil => intro f arr i _; rfl
  | cons cell rest ih =>
    intro f arr i hi
    cases cell with
    | none =>
      show (writeRow r (f + 1) rest arr)[i]? = arr[i]?
      apply ih (f + 1) arr i
      simp only [List.length_cons] at hi
      omega
    | some p =>
      show (writeRow r (f + 1) rest
        (arr.set (SquareUtils.fileRankToIndex f r) (some p)))[i]? = arr[i]?
      rw [ih (f + 1) _ i (by simp only [List.length_cons] at hi; omega)]
      apply List.getElem?_set_ne
      show SquareUtils.fileRankToIndex f r ≠ i
      simp only [SquareUtils.fileRankToIndex]
      simp only [List.length_cons] at hi
      omega

theorem writeRow_getElem_inside (r : Nat) (row : List (Option Piece)) :
    ∀ f arr k, k < row.length → arr.length = 64 → 8 * r + f + row.length ≤ 64 →
      (writeRow r f row arr)[8 * r + f + k]? =
        match row[k]? with
        | some (some p) => some (some p)
        | _ => arr[8 * r + f + k]? := by
  induction row with
  | nil => intro f arr k hk; simp at hk
  | cons cell rest ih =>
    intro f arr k hk hlen hbound
    cases k with
    | zero =>
      cases cell with
      | none =>
        show (writeRow r (f + 1) rest arr)[8 * r + f + 0]? = _
        rw [writeRow_getElem_outside r rest (f + 1) arr _ (by omega)]
        simp only [List.getElem?_cons_zero]
      | some p =>
        show (writeRow r (f + 1) rest
          (arr.set (SquareUtils.fileRankToIndex f r) (some p)))[8 * r + f + 0]? = _
        rw [writeRow_getElem_outside r rest (f + 1) _ _ (by omega)]
        simp only [List.getElem?_cons_zero]
        have heq : SquareUtils.fileRankToIndex f r = 8 * r + f + 0 := by
          simp only [SquareUtils.fileRankToIndex]; omega
        rw [← heq]
        exact List.getElem?_set_self (by
          rw [heq]
          simp only [List.length_cons] at hbound
          omega)
    | succ k =>
      have hidx : 8 * r + f + (k + 1) = 8 * r + (f + 1) + k := by omega
      cases cell with
      | none =>
        show (writeRow r (f + 1) rest arr)[8 * r + f + (k + 1)]? = _
        rw [hidx, ih (f + 1) arr k (by simpa using hk) hlen
          (by simp only [List.length_cons] at hbound; omega)]
        rw [← hidx]
        simp only [List.getElem?_cons_succ]
      | some p =>
        show (writeRow r (f + 1) rest
          (arr.set (SquareUtils.fileRankToIndex f r) (some p)))[8 * r + f + (k + 1)]? = _
        rw [hidx, ih (f + 1) _ k (by simpa using hk)
          (by rw [List.length_set]; exact hlen)
          (by simp only [List.length_cons] at hbound; omega)]
        have hne : (arr.set (SquareUtils.fileRankToIndex f r) (some p))[8 * r + (f + 1) + k]?
            = arr[8 * r + (f + 1) + k]? := by
          apply List.getElem?_set_ne
          simp only [SquareUtils.fileRankToIndex]
          omega
        rw [hne, ← hidx]
        simp only [List.getElem?_cons_succ]

theorem writeRows_length (pairs : List (Nat × List (Option Piece))) :
    ∀ arr, (writeRows pairs arr).length = arr.length := by
  induction pairs with
  | nil => intro arr; rfl
  | cons pr rest ih =>
    intro arr
    obtain ⟨r, row⟩ := pr
    show (writeRows rest (writeRow r 0 row arr)).length = arr.length
    rw [ih _, writeRow_length]

theorem applyCells_writeRows (pairs : List (Nat × List (Option Piece))) :
    (∀ pr ∈ pairs, pr.1 < 8 ∧ pr.2.length ≤ 8) → ∀ arr,
      Board.applyCells arr (pairs.flatMap fun pr => rowCellsTyped pr.1 0 pr.2) =
        Except.ok (writeRows pairs arr) := by
  induction pairs with
  | nil => intro _ arr; rfl
  | cons pr rest ih =>
    intro hb arr
    obtain ⟨r, row⟩ := pr
    rw [List.flatMap_cons, applyCells_append,
      applyCells_rowCellsTyped r row (hb (r, row) (by simp)).1 0 arr
        (by simpa using (hb (r, row) (by simp)).2)]
    exact ih (fun q hq => hb q (by simp [hq])) _

theorem writeRows_getElem_notin (pairs : List (Nat × List (Option Piece))) :
    ∀ arr r f, f < 8 → (∀ pr ∈ pairs, pr.1 ≠ r) → (∀ pr ∈ pairs, pr.2.length ≤ 8) →
      (writeRows pairs arr)[8 * r + f]? = arr[8 * r + f]? := by
  induction pairs with
  | nil => intro arr r f _ _ _; rfl
  | cons pr rest ih =>
    intro arr r f hf hne hlen
    obtain ⟨r', row'⟩ := pr
    show (writeRows rest (writeRow r' 0 row' arr))[8 * r + f]? = arr[8 * r + f]?
    rw [ih _ r f hf (fun q hq => hne q (by simp [hq]))
      (fun q hq => hlen q (by simp [hq]))]
    apply writeRow_getElem_outside
    have h1 : r' ≠ r := hne (r', row') (by simp)
    have h2 : row'.length ≤ 8 := hlen (r', row') (by simp)
    rcases Nat.lt_or_ge r r' with h | h
    · left; omega
    · right; omega

theorem writeRows_getElem_in (pairs : List (Nat × List (Option Piece))) :
    ∀ arr r f row, f < 8 → arr.length = 64 → (pairs.map Prod.fst).Nodup →
      (r, row) ∈ pairs → (∀ pr ∈ pairs, pr.1 < 8 ∧ pr.2.length ≤ 8) →
      (writeRows pairs arr)[8 * r + f]? =
        match row[f]? with
        | some (some p) => some (some p)
        | _ => arr[8 * r + f]? := by
  induction pairs with
  | nil => intro arr r f row _ _ _ hmem; simp at hmem
  | cons pr rest ih =>
    intro arr r f row hf hlen hnd hmem hb
    obtain ⟨r', row'⟩ := pr
    show (writeRows rest (writeRow r' 0 row' arr))[8 * r + f]? = _
    rcases List.mem_cons.mp hmem with heq | hmem'
    · injection heq with ha hb2
      subst ha
      subst hb2
      have hnotin : ∀ pr ∈ rest, pr.1 ≠ r := by
        intro q hq
        have := hnd
        simp only [List.map_cons, List.nodup_cons, List.mem_map] at this
        intro hq1
        exact this.1 ⟨q, hq, hq1⟩
      rw [writeRows_getElem_notin rest _ r f hf hnotin
        (fun q hq => (hb q (by simp [hq])).2)]
      have hr8 : r < 8 := (hb (r, row) (by simp)).1
      have hrl : row.length ≤ 8 := (hb (r, row) (by simp)).2
      by_cases hfr : f < row.length
      · have := writeRow_getElem_inside r row 0 arr f hfr hlen (by omega)
        simpa using this
      · rw [writeRow_getElem_outside r row 0 arr _ (by omega),
          show row[f]? = none from List.getElem?_eq_none (by omega)]
    · have hnd' : (rest.map Prod.fst).Nodup := by
        simp only [List.map_cons, List.nodup_cons] at hnd
        exact hnd.2
      rw [ih _ r f row hf (by rw [writeRow_length]; exact hlen) hnd' hmem'
        (fun q hq => hb q (by simp [hq]))]
      have hr'8 : r' < 8 := (hb (r', row') (by simp)).1
      have hrl' : row'.length ≤ 8 := (hb (r', row') (by simp)).2
      have hrne : r ≠ r' := by
        intro hrr
        subst hrr
        simp only [List.map_cons, List.nodup_cons, List.mem_map] at hnd
        exact hnd.1 ⟨(r, row), hmem', rfl⟩
      have houts : (writeRow r' 0 row' arr)[8 * r + f]? = arr[8 * r + f]? := by
        apply writeRow_getElem_outside
        rcases Nat.lt_or_ge r r' with h | h
        · left; omega
        · right; omega
      rw [houts]

theorem digit_ne_space_slash (c : Char) (h : isDigitChar c = true) :
    c ≠ ' ' ∧ c ≠ '/' := by
  have := mem_of_isDigitChar c h
  fin_cases this <;> exact ⟨by decide, by decide⟩

theorem chars_joinSep (sep : Char) (parts : List (List Char)) :
    ∀ ch ∈ joinSep sep parts, ch = sep ∨ ∃ part ∈ parts, ch ∈ part := by
  induction parts with
  | nil => intro ch hm; simp [joinSep] at hm
  | cons x rest ih =>
    intro ch hm
    cases rest with
    | nil =>
      right
      exact ⟨x, by simp, by simpa [joinSep] using hm⟩
    | cons y t =>
      have : joinSep sep (x :: y :: t) = x ++ sep :: joinSep sep (y :: t) := rfl
      rw [this] at hm
      rcases List.mem_append.mp hm with hx | hx
      · exact Or.inr ⟨x, by simp, hx⟩
      · rcases List.mem_cons.mp hx with hs | hs
        · exact Or.inl hs
        · rcases ih ch hs with h | ⟨part, hp, hcp⟩
          · exact Or.inl h
          · exact Or.inr ⟨part, by simp [hp], hcp⟩

theorem splitChar_joinSep_parts (sep : Char) (parts : List (List Char))
    (hne : parts ≠ [])
    (hc : ∀ part ∈ parts, ∀ c ∈ part, c ≠ sep) :
    splitChar sep (joinSep sep parts) = parts := by
  induction parts with
  | nil => exact absurd rfl hne
  | cons x rest ih =>
    cases rest with
    | nil =>
      show splitChar sep x = [x]
      exact splitChar_no_sep sep x (hc x (by simp))
    | cons y t =>
      have hj : joinSep sep (x :: y :: t) = x ++ sep :: joinSep sep (y :: t) := rfl
      rw [hj, splitChar_append_cons sep x _ (hc x (by simp)),
        ih (by simp) (fun part hp => hc part (by simp [hp]))]

theorem rowChars_length (squares : List (Option Piece)) (r : Nat) :
    (FENParser.rowChars squares r).length = 8 := by
  simp [FENParser.rowChars]

theorem rowChars_getElem (squares : List (Option Piece)) (r f : Nat) (hf : f < 8) :
    (FENParser.rowChars squares r)[f]? =
      some (pieceAtIdx squares (SquareUtils.fileRankToIndex f r)) := by
  simp [FENParser.rowChars, List.getElem?_map, List.getElem?_range hf]

theorem castlingFieldOf_chars (cr : CastlingRights) :
    ∀ ch ∈ FENParser.castlingFieldOf cr, ch ≠ ' ' := by
  obtain ⟨a, b, c, d⟩ := cr
  cases a <;> cases b <;> cases c <;> cases d <;> decide

theorem castlingFieldOf_roundtrip (cr : CastlingRights) :
    (⟨(FENParser.castlingFieldOf cr).contains 'K',
      (FENParser.castlingFieldOf cr).contains 'Q',
      (FENParser.castlingFieldOf cr).contains 'k',
      (FENParser.castlingFieldOf cr).contains 'q'⟩ : CastlingRights) = cr := by
  obtain ⟨a, b, c, d⟩ := cr
  cases a <;> cases b <;> cases c <;> cases d <;> decide

theorem sqToName_chars (sq : Sq) : ∀ ch ∈ sqToName sq, ch ≠ ' ' := by
  obtain ⟨f, r⟩ := sq
  fin_cases f <;> fin_cases r <;> decide

theorem nameToSq_sqToName (sq : Sq) : nameToSq (sqToName sq) = some sq := by
  obtain ⟨f, r⟩ := sq
  fin_cases f <;> fin_cases r <;> rfl

theorem sqToName_ne_dash (sq : Sq) : (sqToName sq == ['-']) = false := by
  obtain ⟨f, r⟩ := sq
  fin_cases f <;> fin_cases r <;> decide

theorem epFieldOf_chars (ep : Option Sq) :
    ∀ ch ∈ FENParser.epFieldOf ep, ch ≠ ' ' := by
  cases ep with
  | none => decide
  | some sq => exact sqToName_chars sq

theorem natToDecimal_chars (n : Nat) : ∀ ch ∈ natToDecimal n, ch ≠ ' ' := by
  intro ch hm
  exact (digit_ne_space_slash ch (natToDecimal_all_digits n ch hm)).1

theorem placementField_chars (squares : List (Option Piece)) :
    ∀ ch ∈ FENParser.placementField squares, ch ≠ ' ' := by
  intro ch hm
  rcases chars_joinSep '/' _ ch hm with h | ⟨part, hp, hcp⟩
  · subst h; decide
  · simp only [List.mem_map, List.mem_range] at hp
    obtain ⟨j, hj, hpart⟩ := hp
    subst hpart
    exact (genRankAux_chars (FENParser.rowChars squares (7 - j)) 0
      (by simp [rowChars_length]) ch hcp).1

theorem splitChar_toFEN (b : Board) :
    splitChar ' ' (Board.toFEN b) =
      [FENParser.placementField b.squares,
       if b.activeColor == Color.white then ['w'] else ['b'],
       FENParser.castlingFieldOf b.castlingRights,
       FENParser.epFieldOf b.enPassantSquare,
       natToDecimal b.halfMoveClock,
       natToDecimal b.fullMoveNumber] := by
  unfold Board.toFEN FENParser.generate
  simp only [List.append_assoc, List.cons_append]
  rw [splitChar_append_cons ' ' _ _ (placementField_chars b.squares),
    splitChar_append_cons ' ' _ _ (by split <;> decide),
    splitChar_append_cons ' ' _ _ (castlingFieldOf_chars b.castlingRights),
    splitChar_append_cons ' ' _ _ (epFieldOf_chars b.enPassantSquare),
    splitChar_append_cons ' ' _ _ (natToDecimal_chars b.halfMoveClock),
    splitChar_no_sep ' ' _ (natToDecimal_chars b.fullMoveNumber)]

theorem splitChar_placementField (squares : List (Option Piece)) :
    splitChar '/' (FENParser.placementField squares) =
      (List.range 8).map fun j =>
        FENParser.genRankAux (FENParser.rowChars squares (7 - j)) 0 := by
  apply splitChar_joinSep_parts
  · simp [List.range_succ]
  · intro part hp c hcp
    simp only [List.mem_map, List.mem_range] at hp
    obtain ⟨j, hj, hpart⟩ := hp
    subst hpart
    exact (genRankAux_chars (FENParser.rowChars squares (7 - j)) 0
      (by simp [rowChars_length]) c hcp).2

theorem getD_map_range {α : Type} (f : Nat → α) (n j : Nat) (hj : j < n) (d : α) :
    ((List.range n).map f).getD j d = f j := by
  rw [List.getD_eq_getElem?_getD, List.getElem?_map, List.getElem?_range hj]
  rfl

theorem get?_map_range_getD {α : Type} (f : Nat → α) (n j : Nat) (hj : j < n) (d : α) :
    (((List.range n).map f).get? j).getD d = f j := by
  rw [List.get?_eq_getElem?, List.getElem?_map, List.getElem?_range hj]
  rfl

theorem parse_toFEN (b : Board) (hfm : 1 ≤ b.fullMoveNumber) :
    FENParser.parse (Board.toFEN b) = Except.ok
      ⟨(List.range 8).flatMap fun j =>
          rowCellsTyped (7 - j) 0 (FENParser.rowChars b.squares (7 - j)),
        b.activeColor, b.castlingRights, b.enPassantSquare,
        b.halfMoveClock, b.fullMoveNumber⟩ := by
  unfold FENParser.parse
  rw [splitChar_toFEN b]
  simp only [List.headD_cons, splitChar_placementField, List.length_map,
    List.length_range, Nat.lt_irrefl, if_false, List.get?, List.getD,
    List.getElem?_cons_zero, List.getElem?_cons_succ, Option.getD_some,
    parseIntJS_natToDecimal]
  refine congrArg Except.ok ?_
  have hpieces : ((List.range 8).flatMap fun j =>
      FENParser.parseRankChars (7 - j)
        (((List.map (fun j => FENParser.genRankAux (FENParser.rowChars b.squares (7 - j)) 0)
          (List.range 8)).get? j).getD []) 0) =
      (List.range 8).flatMap fun j =>
        rowCellsTyped (7 - j) 0 (FENParser.rowChars b.squares (7 - j)) := by
    apply List.flatMap_congr
    intro j hj
    have hj8 : j < 8 := List.mem_range.mp hj
    rw [get?_map_range_getD _ 8 j hj8,
      parseRankChars_genRankAux (7 - j) _ 0 0 (by simp [rowChars_length])]
  have hac : (if ((if (b.activeColor == Color.white) = true then ['w'] else ['b'])
      == ['w']) = true then Color.white else Color.black) = b.activeColor := by
    cases b.activeColor <;> decide
  have hep : (if (FENParser.epFieldOf b.enPassantSquare == ['-']) = true then none
      else nameToSq (FENParser.epFieldOf b.enPassantSquare)) = b.enPassantSquare := by
    cases b.enPassantSquare with
    | none => rfl
    | some sq =>
      show (if (sqToName sq == ['-']) = true then none else nameToSq (sqToName sq)) = some sq
      rw [sqToName_ne_dash sq]
      simp [nameToSq_sqToName sq]
  have hfm' : (if (b.fullMoveNumber == 0) = true then 1 else b.fullMoveNumber)
      = b.fullMoveNumber := by
    rw [if_neg (by simp; omega)]
  rw [hpieces, hac, hep, hfm', castlingFieldOf_roundtrip b.castlingRights]

theorem applyCells_parse_pieces (b : Board) (h64 : b.squares.length = 64) :
    Board.applyCells (List.replicate 64 none)
      ((List.range 8).flatMap fun j =>
        rowCellsTyped (7 - j) 0 (FENParser.rowChars b.squares (7 - j))) =
      Except.ok b.squares := by
  rw [show ((List.range 8).flatMap fun j =>
      rowCellsTyped (7 - j) 0 (FENParser.rowChars b.squares (7 - j))) =
      ((List.range 8).map fun j => (7 - j, FENParser.rowChars b.squares (7 - j))).flatMap
        (fun pr => rowCellsTyped pr.1 0 pr.2) from by rw [List.flatMap_map]]
  rw [applyCells_writeRows _ (by
    intro pr hpr
    simp only [List.mem_map, List.mem_range] at hpr
    obtain ⟨j, hj, rfl⟩ := hpr
    exact ⟨by omega, by simp [rowChars_length]⟩) _]
  refine congrArg Except.ok ?_
  apply List.ext_getElem?
  intro i
  by_cases hi : i < 64
  · have hr8 : i / 8 < 8 := by omega
    have hf8 : i % 8 < 8 := by omega
    have hif : i = 8 * (i / 8) + i % 8 := by omega
    rw [hif]
    rw [writeRows_getElem_in _ _ (i / 8) (i % 8) (FENParser.rowChars b.squares (i / 8))
      hf8 (by simp)
      (by
        rw [show (((List.range 8).map fun j =>
            (7 - j, FENParser.rowChars b.squares (7 - j))).map Prod.fst) =
            (List.range 8).map (fun j => 7 - j) by simp [List.map_map]]
        decide)
      (by
        apply List.mem_map.mpr
        refine ⟨7 - i / 8, List.mem_range.mpr (by omega), ?_⟩
        rw [show 7 - (7 - i / 8) = i / 8 by omega])
      (by
        intro pr hpr
        simp only [List.mem_map, List.mem_range] at hpr
        obtain ⟨j, hj, rfl⟩ := hpr
        exact ⟨by omega, by simp [rowChars_length]⟩)]
    rw [rowChars_getElem b.squares (i / 8) (i % 8) hf8]
    rw [show SquareUtils.fileRankToIndex (i % 8) (i / 8) = i by
      simp only [SquareUtils.fileRankToIndex]; omega]
    have hv := List.getElem?_eq_getElem (show i < b.squares.length by omega)
    rw [show pieceAtIdx b.squares i = b.squares[i] by
      simp only [pieceAtIdx, List.getD_eq_getElem?_getD, hv, Option.getD_some]]
    rw [← hif, hv]
    cases b.squares[i] with
    | none => rw [List.getElem?_replicate, if_pos hi]
    | some p => rfl
  · rw [List.getElem?_eq_none (by rw [writeRows_length]; simp; omega),
      List.getElem?_eq_none (by omega)]

theorem fromFEN_toFEN (b : Board) (h64 : b.squares.length = 64)
    (hfm : 1 ≤ b.fullMoveNumber) :
    Board.fromFEN (Board.toFEN b) = Except.ok b := by
  unfold Board.fromFEN
  rw [parse_toFEN b hfm]
  show (match Board.applyCells (List.replicate 64 none)
      ((List.range 8).flatMap fun j =>
        rowCellsTyped (7 - j) 0 (FENParser.rowChars b.squares (7 - j))) with
    | Except.error e => Except.error e
    | Except.ok squares => Except.ok (⟨squares, b.activeColor, b.castlingRights,
        b.enPassantSquare, b.halfMoveClock, b.fullMoveNumber⟩ : Board)) = Except.ok b
  rw [applyCells_parse_pieces b h64]

theorem fileCharToNat_inv (c : Char) (f : Nat) (h : fileCharToNat c = some f) :
    f < 8 ∧ natToFileChar f = c := by
  unfold fileCharToNat at h
  split at h <;>
    first
    | (injection h with h'; subst h'; exact ⟨by omega, rfl⟩)
    | (injection h)

theorem rankCharToNat_inv (c : Char) (r : Nat) (h : rankCharToNat c = some r) :
    r < 8 ∧ natToRankChar r = c := by
  unfold rankCharToNat at h
  split at h <;>
    first
    | (injection h with h'; subst h'; exact ⟨by omega, rfl⟩)
    | (injection h)

theorem sqToName_nameToSq (l : List Char) (sq : Sq) (h : nameToSq l = some sq) :
    sqToName sq = l := by
  match l with
  | [] => simp [nameToSq] at h
  | [c] => simp [nameToSq] at h
  | c1 :: c2 :: c3 :: t => simp [nameToSq] at h
  | [c1, c2] =>
    have h' : (match fileCharToNat c1, rankCharToNat c2 with
        | some f, some r =>
          if hf : f < 8 then
            if hr : r < 8 then some (⟨⟨f, hf⟩, ⟨r, hr⟩⟩ : Sq) else none
          else none
        | _, _ => none) = some sq := h
    cases hf : fileCharToNat c1 with
    | none =>
      rw [hf] at h'
      exact absurd h' (by cases rankCharToNat c2 <;> simp)
    | some f =>
      cases hr : rankCharToNat c2 with
      | none => rw [hf, hr] at h'; exact absurd h' (by simp)
      | some r =>
        rw [hf, hr] at h'
        obtain ⟨hf8, hcf⟩ := fileCharToNat_inv c1 f hf
        obtain ⟨hr8, hcr⟩ := rankCharToNat_inv c2 r hr
        have h2 : (if hf : f < 8 then
            if hr : r < 8 then some (⟨⟨f, hf⟩, ⟨r, hr⟩⟩ : Sq) else none
          else none) = some sq := h'
        rw [dif_pos hf8, dif_pos hr8] at h2
        injection h2 with h''
        subst h''
        show [natToFileChar f, natToRankChar r] = [c1, c2]
        rw [hcf, hcr]

theorem isCanonicalNat_digits (l : List Char) (h : isCanonicalNat l = true) :
    l ≠ [] ∧ ∀ c ∈ l, isDigitChar c = true := by
  simp only [isCanonicalNat, Bool.or_eq_true, beq_iff_eq, Bool.and_eq_true,
    Bool.not_eq_true', List.all_eq_true, bne_iff_ne] at h
  rcases h with h | h
  · subst h
    exact ⟨by simp, by decide⟩
  · refine ⟨?_, h.1.2⟩
    have := h.1.1
    cases l with
    | nil => simp at this
    | cons a t => simp

theorem parseIntJS_all_digits (l : List Char) (hne : l ≠ [])
    (hd : ∀ c ∈ l, isDigitChar c = true) : parseIntJS l = some (decToNat l) := by
  unfold parseIntJS
  rw [takeWhile_all l hd, if_neg (by simpa using hne)]

theorem isRankDigit_facts (c : Char) (h : isRankDigit c = true) :
    isDigitChar c = true ∧ 1 ≤ c.toNat - 48 ∧ c.toNat - 48 ≤ 8 ∧
      digitChar (c.toNat - 48) = c := by
  have hm : c ∈ ['1', '2', '3', '4', '5', '6', '7', '8'] := by
    simpa [isRankDigit] using h
  fin_cases hm <;> exact ⟨by decide, by decide, by decide, by decide⟩

theorem validPieceLetter_facts (c : Char) (h : validPieceLetter c = true) :
    isRankDigit c = false ∧ isDigitChar c = false ∧
    (FENParser.pieceCharMap (jsToLower c)).map (fun t =>
      FENParser.pieceChar ⟨t, if eqOwnUpper c = true then Color.white
        else Color.black⟩) = some c := by
  have hm : c ∈ "KQRBNPkqrbnp".toList := by
    simpa [validPieceLetter] using h
  fin_cases hm <;> exact ⟨by decide, by decide, by decide⟩

theorem rowCellsTyped_replicate (r k : Nat) (rest : List (Option Piece)) :
    ∀ f, rowCellsTyped r f (List.replicate k none ++ rest) =
      rowCellsTyped r (f + k) rest := by
  induction k with
  | zero => intro f; rfl
  | succ k ih =>
    intro f
    rw [List.replicate_succ, List.cons_append]
    show rowCellsTyped r (f + 1) (List.replicate k none ++ rest) = _
    rw [ih (f + 1)]
    congr 1
    omega

theorem parseRankChars_descRow (r : Nat) (desc : List Char)
    (hv : ∀ c ∈ desc, (validPieceLetter c || isRankDigit c) = true) :
    ∀ f, FENParser.parseRankChars r desc f = rowCellsTyped r f (descRow desc) := by
  induction desc with
  | nil => intro f; rfl
  | cons c rest ih =>
    intro f
    by_cases hd : isRankDigit c = true
    · have hdd := (isRankDigit_facts c hd).1
      rw [parseRankChars_digit_cons r c rest f hdd,
        ih (fun x hx => hv x (by simp [hx])) (f + (c.toNat - 48)),
        show descRow (c :: rest) =
          List.replicate (c.toNat - 48) none ++ descRow rest from by
            simp [descRow, hd],
        rowCellsTyped_replicate]
    · have hcl : validPieceLetter c = true := by
        rcases Bool.or_eq_true_iff.mp (hv c (by simp)) with h | h
        · exact h
        · exact absurd h hd
      obtain ⟨-, hcd, hmap⟩ := validPieceLetter_facts c hcl
      cases hmc : FENParser.pieceCharMap (jsToLower c) with
      | none => rw [hmc] at hmap; exact absurd hmap (by simp)
      | some t =>
        rw [parseRankChars_other_cons r c rest f hcd, hmc,
          show descRow (c :: rest) =
            some ⟨t, if eqOwnUpper c then Color.white else Color.black⟩
              :: descRow rest from by
            simp only [descRow, hd, Bool.false_eq_true, if_false, hmc],
          ih (fun x hx => hv x (by simp [hx])) (f + 1)]
        rfl

theorem descRow_length (desc : List Char) :
    (descRow desc).length = descWidth desc := by
  induction desc with
  | nil => rfl
  | cons c rest ih =>
    have hw : descWidth (c :: rest) =
        (if isRankDigit c then c.toNat - 48 else 1) + descWidth rest := by
      simp [descWidth]
    by_cases hd : isRankDigit c = true
    · rw [show descRow (c :: rest) =
          List.replicate (c.toNat - 48) none ++ descRow rest from by
        simp [descRow, hd]]
      rw [List.length_append, List.length_replicate, ih, hw, if_pos hd]
    · rw [show descRow (c :: rest) =
          (match FENParser.pieceCharMap (jsToLower c) with
           | some t => some ⟨t, if eqOwnUpper c then Color.white else Color.black⟩
           | none => none) :: descRow rest from by
        simp only [descRow, hd, Bool.false_eq_true, if_false]]
      rw [List.length_cons, ih, hw, if_neg hd]
      omega

theorem noAdjDigits_tail (c : Char) (rest : List Char)
    (h : noAdjDigits (c :: rest) = true) : noAdjDigits rest = true := by
  cases rest with
  | nil => rfl
  | cons c2 t =>
    have hh : (!(isRankDigit c && isRankDigit c2) && noAdjDigits (c2 :: t)) = true := h
    simp only [Bool.and_eq_true] at hh
    exact hh.2

theorem genRankAux_descRow (desc : List Char)
    (hall : ∀ c ∈ desc, (validPieceLetter c || isRankDigit c) = true)
    (hadj : noAdjDigits desc = true) :
    FENParser.genRankAux (descRow desc) 0 = desc := by
  induction desc with
  | nil => rfl
  | cons c rest ih =>
    by_cases hd : isRankDigit c = true
    · obtain ⟨-, hv1, hv8, hdc⟩ := isRankDigit_facts c hd
      rw [show descRow (c :: rest) =
          List.replicate (c.toNat - 48) none ++ descRow rest from by
        simp [descRow, hd]]
      rw [genRankAux_replicate]
      cases rest with
      | nil =>
        show FENParser.genRankAux [] (0 + (c.toNat - 48)) = [c]
        simp only [FENParser.genRankAux, Nat.zero_add]
        rw [if_pos (by omega), hdc]
      | cons c2 rest2 =>
        have hnd2 : isRankDigit c2 = false := by
          have hh : (!(isRankDigit c && isRankDigit c2) &&
              noAdjDigits (c2 :: rest2)) = true := hadj
          simp only [Bool.and_eq_true] at hh
          have := hh.1
          rw [hd] at this
          simpa using this
        have hc2l : validPieceLetter c2 = true := by
          rcases Bool.or_eq_true_iff.mp (hall c2 (by simp)) with h | h
          · exact h
          · rw [hnd2] at h; exact absurd h (by simp)
        obtain ⟨-, -, hmap2⟩ := validPieceLetter_facts c2 hc2l
        cases hmc : FENParser.pieceCharMap (jsToLower c2) with
        | none => rw [hmc] at hmap2; exact absurd hmap2 (by simp)
        | some t =>
          rw [hmc] at hmap2
          have hpc : FENParser.pieceChar
              ⟨t, if eqOwnUpper c2 = true then Color.white else Color.black⟩ = c2 := by
            simpa using hmap2
          have hrow2 : descRow (c2 :: rest2) =
              some ⟨t, if eqOwnUpper c2 then Color.white else Color.black⟩
                :: descRow rest2 := by
            simp only [descRow, hnd2, Bool.false_eq_true, if_false, hmc]
          have ihr := ih (fun x hx => hall x (by simp [hx]))
            (noAdjDigits_tail c _ hadj)
          rw [hrow2] at ihr ⊢
          have ihr' : FENParser.pieceChar
              ⟨t, if eqOwnUpper c2 then Color.white else Color.black⟩ ::
                FENParser.genRankAux (descRow rest2) 0 = c2 :: rest2 := by
            simpa [FENParser.genRankAux] using ihr
          show (if 0 + (c.toNat - 48) > 0 then [digitChar (0 + (c.toNat - 48))]
              else []) ++ FENParser.pieceChar
                ⟨t, if eqOwnUpper c2 then Color.white else Color.black⟩
                :: FENParser.genRankAux (descRow rest2) 0 = c :: c2 :: rest2
          rw [if_pos (by omega)]
          simp only [Nat.zero_add, hdc, List.cons_append, List.nil_append]
          rw [ihr']
    · have hcl : validPieceLetter c = true := by
        rcases Bool.or_eq_true_iff.mp (hall c (by simp)) with h | h
        · exact h
        · exact absurd h hd
      obtain ⟨-, -, hmap⟩ := validPieceLetter_facts c hcl
      cases hmc : FENParser.pieceCharMap (jsToLower c) with
      | none => rw [hmc] at hmap; exact absurd hmap (by simp)
      | some t =>
        rw [hmc] at hmap
        have hpc : FENParser.pieceChar
            ⟨t, if eqOwnUpper c = true then Color.white else Color.black⟩ = c := by
          simpa using hmap
        rw [show descRow (c :: rest) =
            some ⟨t, if eqOwnUpper c then Color.white else Color.black⟩
              :: descRow rest from by
          simp only [descRow, hd, Bool.false_eq_true, if_false, hmc]]
        show FENParser.pieceChar
            ⟨t, if eqOwnUpper c then Color.white else Color.black⟩
            :: FENParser.genRankAux (descRow rest) 0 = c :: rest
        rw [hpc, ih (fun x hx => hall x (by simp [hx])) (noAdjDigits_tail c _ hadj)]

theorem map_getD_range_self {α : Type} (l : List α) (d : α) :
    (List.range l.length).map (fun i => l.getD i d) = l := by
  apply List.ext_getElem?
  intro i
  by_cases hi : i < l.length
  · rw [List.getElem?_map, List.getElem?_range hi, List.getElem?_eq_getElem hi]
    simp [List.getD_eq_getElem?_getD, List.getElem?_eq_getElem hi]
  · rw [List.getElem?_eq_none (by simp; omega), List.getElem?_eq_none (by omega)]

theorem rowChars_writeRows (pairs : List (Nat × List (Option Piece))) (r : Nat)
    (row : List (Option Piece)) (hr : (r, row) ∈ pairs) (hrow : row.length = 8)
    (hnd : (pairs.map Prod.fst).Nodup)
    (hb : ∀ pr ∈ pairs, pr.1 < 8 ∧ pr.2.length ≤ 8) :
    FENParser.rowChars (writeRows pairs (List.replicate 64 none)) r = row := by
  have hr8 : r < 8 := (hb (r, row) hr).1
  apply List.ext_getElem?
  intro f
  by_cases hf : f < 8
  · rw [rowChars_getElem _ r f hf]
    have hfr : f < row.length := by omega
    have h64 : 8 * r + f < 64 := by omega
    have hin := writeRows_getElem_in pairs (List.replicate 64 none) r f row hf
      (by simp) hnd hr hb
    rw [List.getElem?_eq_getElem hfr] at hin ⊢
    have hpa : pieceAtIdx (writeRows pairs (List.replicate 64 none))
        (SquareUtils.fileRankToIndex f r) =
        ((writeRows pairs (List.replicate 64 none))[8 * r + f]?).getD none := by
      rw [show SquareUtils.fileRankToIndex f r = 8 * r + f from by
        simp only [SquareUtils.fileRankToIndex]; omega]
      simp [pieceAtIdx, List.getD_eq_getElem?_getD]
    rw [hpa]
    cases hcell : row[f] with
    | none =>
      rw [hcell] at hin
      have hin' : (writeRows pairs (List.replicate 64 none))[8 * r + f]? =
          (List.replicate 64 (none : Option Piece))[8 * r + f]? := hin
      rw [List.getElem?_replicate, if_pos h64] at hin'
      rw [hin']
      rfl
    | some p =>
      rw [hcell] at hin
      have hin' : (writeRows pairs (List.replicate 64 none))[8 * r + f]? =
          some (some p) := hin
      rw [hin']
      rfl
  · rw [List.getElem?_eq_none (by rw [rowChars_length]; omega),
      List.getElem?_eq_none (by omega)]

theorem validCastlingField_roundtrip (l : List Char)
    (h : validCastlingField l = true) :
    FENParser.castlingFieldOf
      ⟨l.contains 'K', l.contains 'Q', l.contains 'k', l.contains 'q'⟩ = l := by
  have hm : l ∈ ([ "-", "K", "Q", "k", "q", "KQ", "Kk", "Kq", "Qk", "Qq", "kq",
      "KQk", "KQq", "Kkq", "Qkq", "KQkq" ].map String.toList) := by
    simpa [validCastlingField] using h
  fin_cases hm <;> decide

theorem placement_parse (pos : List Char)
    (h8 : (splitChar '/' pos).length = 8)
    (hv : ∀ d ∈ splitChar '/' pos, validRankDesc d = true) :
    ∃ squares : List (Option Piece),
      Board.applyCells (List.replicate 64 none)
        ((List.range 8).flatMap fun j =>
          FENParser.parseRankChars (7 - j) ((splitChar '/' pos).getD j []) 0) =
        Except.ok squares ∧
      squares.length = 64 ∧
      FENParser.placementField squares = pos := by
  have hdj : ∀ j, j < 8 → ((splitChar '/' pos).getD j []) ∈ splitChar '/' pos := by
    intro j hj
    rw [List.getD_eq_getElem?_getD, List.getElem?_eq_getElem (by omega)]
    exact List.getElem_mem _
  have hval : ∀ j, j < 8 →
      (∀ c ∈ (splitChar '/' pos).getD j [],
        (validPieceLetter c || isRankDigit c) = true) ∧
      noAdjDigits ((splitChar '/' pos).getD j []) = true ∧
      descWidth ((splitChar '/' pos).getD j []) = 8 := by
    intro j hj
    have hd := hv _ (hdj j hj)
    simp only [validRankDesc, Bool.and_eq_true, beq_iff_eq, List.all_eq_true] at hd
    tauto
  have hflat : ((List.range 8).flatMap fun j =>
      FENParser.parseRankChars (7 - j) ((splitChar '/' pos).getD j []) 0) =
      ((List.range 8).map fun j =>
        (7 - j, descRow ((splitChar '/' pos).getD j []))).flatMap
        (fun pr => rowCellsTyped pr.1 0 pr.2) := by
    rw [List.flatMap_map]
    apply List.flatMap_congr
    intro j hj
    have hj8 : j < 8 := List.mem_range.mp hj
    exact parseRankChars_descRow (7 - j) _ (hval j hj8).1 0
  have hpairsb : ∀ pr ∈ ((List.range 8).map fun j =>
      (7 - j, descRow ((splitChar '/' pos).getD j []))),
      pr.1 < 8 ∧ pr.2.length ≤ 8 := by
    intro pr hpr
    simp only [List.mem_map, List.mem_range] at hpr
    obtain ⟨j, hj, rfl⟩ := hpr
    refine ⟨by omega, ?_⟩
    rw [descRow_length, (hval j hj).2.2]
  refine ⟨writeRows ((List.range 8).map fun j =>
    (7 - j, descRow ((splitChar '/' pos).getD j []))) (List.replicate 64 none),
    ?_, ?_, ?_⟩
  · rw [hflat]
    exact applyCells_writeRows _ hpairsb _
  · rw [writeRows_length]; simp
  · have hnd : ((((List.range 8).map fun j =>
        (7 - j, descRow ((splitChar '/' pos).getD j []))).map Prod.fst)).Nodup := by
      rw [show ((((List.range 8).map fun j =>
          (7 - j, descRow ((splitChar '/' pos).getD j []))).map Prod.fst)) =
          (List.range 8).map (fun j => 7 - j) by simp [List.map_map]]
      decide
    have hrow : ∀ j, j < 8 → FENParser.rowChars
        (writeRows ((List.range 8).map fun j =>
          (7 - j, descRow ((splitChar '/' pos).getD j []))) (List.replicate 64 none))
        (7 - j) = descRow ((splitChar '/' pos).getD j []) := by
      intro j hj
      refine rowChars_writeRows _ _ _ ?_ ?_ hnd hpairsb
      · exact List.mem_map.mpr ⟨j, List.mem_range.mpr hj, rfl⟩
      · rw [descRow_length, (hval j hj).2.2]
    unfold FENParser.placementField
    have hmaps : ((List.range 8).map fun j => FENParser.genRankAux
        (FENParser.rowChars (writeRows ((List.range 8).map fun j =>
          (7 - j, descRow ((splitChar '/' pos).getD j [])))
          (List.replicate 64 none)) (7 - j)) 0) =
        (List.range 8).map fun j => (splitChar '/' pos).getD j [] := by
      apply List.map_congr_left
      intro j hj
      have hj8 := List.mem_range.mp hj
      rw [hrow j hj8]
      exact genRankAux_descRow _ (hval j hj8).1 (hval j hj8).2.1
    rw [hmaps, show (8 : Nat) = (splitChar '/' pos).length from h8.symm,
      map_getD_range_self, joinSep_splitChar]

theorem toFEN_fromFEN (s : List Char) (hv : validFEN s = true) :
    ∃ b : Board, Board.fromFEN s = Except.ok b ∧ Board.toFEN b = s := by
  unfold validFEN at hv
  split at hv
  case h_2 => exact absurd hv (by simp)
  case h_1 pos ac cast ep hm fm heq =>
    simp only [Bool.and_eq_true, Bool.or_eq_true, beq_iff_eq, List.all_eq_true] at hv
    have hranks8 : (splitChar '/' pos).length = 8 := by tauto
    have hranksv : ∀ d ∈ splitChar '/' pos, validRankDesc d = true := by tauto
    have hac : ac = ['w'] ∨ ac = ['b'] := by tauto
    have hcast : validCastlingField cast = true := by tauto
    have hep : validEpField ep = true := by tauto
    have hhm : isCanonicalNat hm = true := by tauto
    have hfm : isCanonicalPos fm = true := by tauto
    obtain ⟨squares, happly, hsqlen, hplace⟩ := placement_parse pos hranks8 hranksv
    have hparse : FENParser.parse s = Except.ok
        ⟨(List.range 8).flatMap fun j =>
            FENParser.parseRankChars (7 - j) ((splitChar '/' pos).getD j []) 0,
         if ac == ['w'] then Color.white else Color.black,
         ⟨cast.contains 'K', cast.contains 'Q', cast.contains 'k', cast.contains 'q'⟩,
         if ep == ['-'] then none else nameToSq ep,
         (parseIntJS hm).getD 0,
         match parseIntJS fm with
         | some n => if n == 0 then 1 else n
         | none => 1⟩ := by
      unfold FENParser.parse
      rw [heq]
      simp only [List.headD_cons, List.get?, List.getD, List.getElem?_cons_zero,
        List.getElem?_cons_succ, Option.getD_some]
      rw [if_neg (by rw [hranks8]; omega)]
    refine ⟨⟨squares,
      if ac == ['w'] then Color.white else Color.black,
      ⟨cast.contains 'K', cast.contains 'Q', cast.contains 'k', cast.contains 'q'⟩,
      if ep == ['-'] then none else nameToSq ep,
      (parseIntJS hm).getD 0,
      match parseIntJS fm with
      | some n => if n == 0 then 1 else n
      | none => 1⟩, ?_, ?_⟩
    · unfold Board.fromFEN
      rw [hparse]
      show (match Board.applyCells (List.replicate 64 none)
          ((List.range 8).flatMap fun j =>
            FENParser.parseRankChars (7 - j) ((splitChar '/' pos).getD j []) 0) with
        | Except.error e => Except.error e
        | Except.ok squares => Except.ok (⟨squares,
            if ac == ['w'] then Color.white else Color.black,
            ⟨cast.contains 'K', cast.contains 'Q',
             cast.contains 'k', cast.contains 'q'⟩,
            if ep == ['-'] then none else nameToSq ep,
            (parseIntJS hm).getD 0,
            match parseIntJS fm with
            | some n => if n == 0 then 1 else n
            | none => 1⟩ : Board)) = _
      rw [happly]
    · have hs : s = pos ++ ' ' ::
          (ac ++ ' ' :: (cast ++ ' ' :: (ep ++ ' ' :: (hm ++ ' ' :: fm)))) := by
        conv_lhs => rw [← joinSep_splitChar ' ' s, heq]
        rfl
      have hacf : (if (if ac == ['w'] then Color.white else Color.black)
          == Color.white then ['w'] else ['b']) = ac := by
        rcases hac with h | h <;> subst h <;> rfl
      have hcastf : FENParser.castlingFieldOf
          ⟨cast.contains 'K', cast.contains 'Q',
           cast.contains 'k', cast.contains 'q'⟩ = cast :=
        validCastlingField_roundtrip cast hcast
      have hepf : FENParser.epFieldOf
          (if ep == ['-'] then none else nameToSq ep) = ep := by
        by_cases hd : ep = ['-']
        · subst hd; rfl
        · rw [if_neg (by simpa using hd)]
          have hsome : (nameToSq ep).isSome = true := by
            simp only [validEpField, Bool.or_eq_true, beq_iff_eq] at hep
            rcases hep with h | h
            · exact absurd h hd
            · exact h
          obtain ⟨sq, hsq⟩ := Option.isSome_iff_exists.mp hsome
          rw [hsq]
          show sqToName sq = ep
          exact sqToName_nameToSq ep sq hsq
      have hhmf : natToDecimal ((parseIntJS hm).getD 0) = hm := by
        obtain ⟨hne, hd⟩ := isCanonicalNat_digits hm hhm
        rw [parseIntJS_all_digits hm hne hd]
        show natToDecimal (decToNat hm) = hm
        exact natToDecimal_decToNat hm hhm
      have hfmparts : fm.isEmpty = false ∧ (∀ c ∈ fm, isDigitChar c = true) ∧
          fm.headD '0' ≠ '0' := by
        simp only [isCanonicalPos, Bool.and_eq_true, Bool.not_eq_true',
          List.all_eq_true, bne_iff_ne] at hfm
        tauto
      have hfmne : fm ≠ [] := by
        cases fm with
        | nil => simp at hfmparts
        | cons a t => simp
      have hfmnat : isCanonicalNat fm = true := by
        unfold isCanonicalPos at hfm
        unfold isCanonicalNat
        rw [hfm]
        simp
      have hfmf : natToDecimal (match parseIntJS fm with
          | some n => if n == 0 then 1 else n
          | none => 1) = fm := by
        rw [parseIntJS_all_digits fm hfmne hfmparts.2.1]
        have hpos : 1 ≤ decToNat fm :=
          decToNat_pos fm hfmparts.2.1 hfmne hfmparts.2.2
        show natToDecimal (if decToNat fm == 0 then 1 else decToNat fm) = fm
        rw [if_neg (by simp; omega)]
        exact natToDecimal_decToNat fm hfmnat
      show FENParser.generate squares
        (if ac == ['w'] then Color.white else Color.black)
        ⟨cast.contains 'K', cast.contains 'Q', cast.contains 'k', cast.contains 'q'⟩
        (if ep == ['-'] then none else nameToSq ep)
        ((parseIntJS hm).getD 0)
        (match parseIntJS fm with
         | some n => if n == 0 then 1 else n
         | none => 1) = s
      unfold FENParser.generate
      rw [hplace, hacf, hcastf, hepf, hhmf, hfmf, hs]
      simp only [List.cons_append, List.append_assoc]

theorem fromFEN_noClocks (s : List Char) (hv : validFENNoClocks s = true) :
    ∃ b : Board, Board.fromFEN s = Except.ok b ∧
      b.halfMoveClock = 0 ∧ b.fullMoveNumber = 1 ∧
      Board.toFEN b = s ++ ' ' :: '0' :: ' ' :: ['1'] := by
  unfold validFENNoClocks at hv
  split at hv
  case h_2 => exact absurd hv (by simp)
  case h_1 pos ac cast ep heq =>
    simp only [Bool.and_eq_true, Bool.or_eq_true, beq_iff_eq, List.all_eq_true] at hv
    have hranks8 : (splitChar '/' pos).length = 8 := by tauto
    have hranksv : ∀ d ∈ splitChar '/' pos, validRankDesc d = true := by tauto
    have hac : ac = ['w'] ∨ ac = ['b'] := by tauto
    have hcast : validCastlingField cast = true := by tauto
    have hep : validEpField ep = true := by tauto
    obtain ⟨squares, happly, hsqlen, hplace⟩ := placement_parse pos hranks8 hranksv
    have hparse : FENParser.parse s = Except.ok
        ⟨(List.range 8).flatMap fun j =>
            FENParser.parseRankChars (7 - j) ((splitChar '/' pos).getD j []) 0,
         if ac == ['w'] then Color.white else Color.black,
         ⟨cast.contains 'K', cast.contains 'Q', cast.contains 'k', cast.contains 'q'⟩,
         if ep == ['-'] then none else nameToSq ep,
         0, 1⟩ := by
      unfold FENParser.parse
      rw [heq]
      simp only [List.headD_cons, List.get?, List.getD, List.getElem?_cons_zero,
        List.getElem?_cons_succ, List.getElem?_nil, Option.getD_some, Option.getD_none]
      rw [if_neg (by rw [hranks8]; omega)]
      rfl
    refine ⟨⟨squares,
      if ac == ['w'] then Color.white else Color.black,
      ⟨cast.contains 'K', cast.contains 'Q', cast.contains 'k', cast.contains 'q'⟩,
      if ep == ['-'] then none else nameToSq ep,
      0, 1⟩, ?_, rfl, rfl, ?_⟩
    · unfold Board.fromFEN
      rw [hparse]
      show (match Board.applyCells (List.replicate 64 none)
          ((List.range 8).flatMap fun j =>
            FENParser.parseRankChars (7 - j) ((splitChar '/' pos).getD j []) 0) with
        | Except.error e => Except.error e
        | Except.ok squares => Except.ok (⟨squares,
            if ac == ['w'] then Color.white else Color.black,
            ⟨cast.contains 'K', cast.contains 'Q',
             cast.contains 'k', cast.contains 'q'⟩,
            if ep == ['-'] then none else nameToSq ep,
            0, 1⟩ : Board)) = _
      rw [happly]
    · have hs : s = pos ++ ' ' :: (ac ++ ' ' :: (cast ++ ' ' :: ep)) := by
        conv_lhs => rw [← joinSep_splitChar ' ' s, heq]
        rfl
      have hacf : (if (if ac == ['w'] then Color.white else Color.black)
          == Color.white then ['w'] else ['b']) = ac := by
        rcases hac with h | h <;> subst h <;> rfl
      have hcastf : FENParser.castlingFieldOf
          ⟨cast.contains 'K', cast.contains 'Q',
           cast.contains 'k', cast.contains 'q'⟩ = cast :=
        validCastlingField_roundtrip cast hcast
      have hepf : FENParser.epFieldOf
          (if ep == ['-'] then none else nameToSq ep) = ep := by
        by_cases hd : ep = ['-']
        · subst hd; rfl
        · rw [if_neg (by simpa using hd)]
          have hsome : (nameToSq ep).isSome = true := by
            simp only [validEpField, Bool.or_eq_true, beq_iff_eq] at hep
            rcases hep with h | h
            · exact absurd h hd
            · exact h
          obtain ⟨sq, hsq⟩ := Option.isSome_iff_exists.mp hsome
          rw [hsq]
          show sqToName sq = ep
          exact sqToName_nameToSq ep sq hsq
      show FENParser.generate squares
        (if ac == ['w'] then Color.white else Color.black)
        ⟨cast.contains 'K', cast.contains 'Q', cast.contains 'k', cast.contains 'q'⟩
        (if ep == ['-'] then none else nameToSq ep) 0 1 =
        s ++ ' ' :: '0' :: ' ' :: ['1']
      unfold FENParser.generate
      rw [hplace, hacf, hcastf, hepf, hs,
        show natToDecimal 0 = ['0'] from rfl, show natToDecimal 1 = ['1'] from rfl]
      simp [List.append_assoc]

/-- C6: round trip of the position serializer (`FENParser.parse` /
`FENParser.generate` through `Board.fromFEN` / `Board.toFEN`).  (a) For
every position whose piece array has the full 64 squares and whose
fullmove number is at least 1 — invariants of every reachable position —
parsing the generated string returns the identical position, field for
field.  (b) For every legal six-field serialization (§6), parsing succeeds
and re-serializing returns the very same string.  (c) For a legal
serialization with the two optional trailing clock fields missing, parsing
succeeds with the defaults halfmove 0 and fullmove 1, and the emitter
produces all six fields, appending ` 0 1` to the four given ones. -/
theorem fen_round_trip :
    (∀ b : Board, b.squares.length = 64 → 1 ≤ b.fullMoveNumber →
      Board.fromFEN (Board.toFEN b) = Except.ok b) ∧
    (∀ s : List Char, validFEN s = true →
      ∃ b : Board, Board.fromFEN s = Except.ok b ∧ Board.toFEN b = s) ∧
    (∀ s : List Char, validFENNoClocks s = true →
      ∃ b : Board, Board.fromFEN s = Except.ok b ∧
        b.halfMoveClock = 0 ∧ b.fullMoveNumber = 1 ∧
        Board.toFEN b = s ++ ' ' :: '0' :: ' ' :: ['1']) :=
  ⟨fromFEN_toFEN, toFEN_fromFEN, fromFEN_noClocks⟩

/-- Witness for C6: the initial position round-trips; the concrete legal
serialization `k7/8/8/8/8/8/8/K7 b Kq e3 12 34` parses and re-serializes
to itself; and the clockless `8/8/8/8/8/8/8/8 w - -` parses with the
default clocks and serializes with ` 0 1` appended. -/
theorem fen_round_trip_witness :
    Board.fromFEN (Board.toFEN Board.initial) = Except.ok Board.initial ∧
    (∃ b : Board,
      Board.fromFEN ("k7/8/8/8/8/8/8/K7 b Kq e3 12 34".toList) = Except.ok b ∧
      Board.toFEN b = "k7/8/8/8/8/8/8/K7 b Kq e3 12 34".toList) ∧
    (∃ b : Board, Board.fromFEN ("8/8/8/8/8/8/8/8 w - -".toList) = Except.ok b ∧
      b.halfMoveClock = 0 ∧ b.fullMoveNumber = 1 ∧
      Board.toFEN b = "8/8/8/8/8/8/8/8 w - -".toList ++ ' ' :: '0' :: ' ' :: ['1']) :=
  ⟨fen_round_trip.1 Board.initial (by decide) (by decide),
   fen_round_trip.2.1 _ (by decide),
   fen_round_trip.2.2 _ (by decide)⟩
